import Mathlib

/-!
Shallow embedding of the hash map in `include/containers/map.hpp`
(namespace `shared`): an open-addressing hash table with quadratic
probing, power-of-two capacities, a 0.75 load-factor growth trigger,
and move-only ownership of the slot array.

Modelling conventions, stated once here:

* Machine integers (`size_t`, `uint32_t`) are modelled as `Nat`; every
  place where the C++ arithmetic can wrap carries an explicit `% 2 ^ 64`
  (the hash accumulator).  `capacity - 1` is `Nat` subtraction: for the
  power-of-two capacities the code maintains this agrees with the C++
  `uint32_t` subtraction, and for the moved-from state (`capacity = 0`,
  where the C++ mask underflows to `0xFFFFFFFF`) every index is out of
  bounds of the empty table under either reading, so the modelled
  behaviour is unchanged.
* Array reads `entries[index]` are guarded by an explicit bound check;
  an out-of-bounds read (undefined behaviour in the C++) makes the
  operation return its failure marker (`none`) and mutate nothing.
* The unbounded probe loop in `find_slot` is given `capacity + 1` units
  of fuel: the probe sequence examines the home slot twice and then
  every remaining slot once within `capacity + 1` steps (proved below),
  so the fuel is exhausted only when the C++ loop would not terminate.
* The float comparison `(float)(m_size + 1) / capacity > 0.75f` is
  modelled as `3 * capacity < 4 * toFloat32 (m_size + 1)`, where
  `toFloat32` is the `uint32` to `float` conversion: round to nearest,
  ties to even, at 24 significant bits.  This captures the rounding of
  the numerator cast, which is the one inexact step: for the
  power-of-two capacities the map maintains, the division is an exact
  exponent shift and the comparison with the exactly representable
  `0.75f` is exact, so the check is faithful on every reachable map
  state.  (For a capacity that is not a power of two - unreachable - the
  C++ quotient could round once more; the model then uses the exact
  quotient.)  For `m_size + 1 ≤ 2 ^ 24` the conversion is the identity
  and the check coincides with the exact rational one; beyond that the
  count is rounded, and an insertion can complete with an exact load
  slightly above 0.75 (lemma `float_check_rounds_down_at_2_pow_25`
  exhibits the first such point, capacity 2 ^ 25 with
  m_size + 1 = 3 * 2 ^ 23 + 1).
* `grow` reinserts the old occupied entries through `operator[]`; the
  load-factor check inside those inner calls never fires (at each step
  of the rehash `4 * (m_size + 1) ≤ 3 * (2 * old_capacity)` because at
  most `old_capacity` entries are reinserted), so the rehash is modelled
  by the check-free insertion path `insert_no_grow`; the lemma
  `grow_inner_check_silent` below discharges this.
-/

namespace shared

/-- Entry models the C++ `struct Entry`: the 2-bit `state` field (0 empty,
1 occupied, 2 deleted) together with the stored pair `data = (first, second)`.
A default-constructed Entry has state 0 and default-constructed pair fields. -/
structure Entry (K V : Type) where
  state : Nat
  first : K
  second : V

instance {K V : Type} [Inhabited K] [Inhabited V] : Inhabited (Entry K V) :=
  ⟨⟨0, default, default⟩⟩

/-- map models the C++ `class map<k, v>`: the slot array `entries`, its
allocated `capacity` (a `uint32_t` in the source) and the occupied count
`m_size`.  In the C++ object `entries` points at a `capacity`-sized
allocation; the array length records the allocation size, and `capacity`
is a separate field because the moved-from state (`entries = nullptr`,
`capacity = 0`) must be representable. -/
structure map (K V : Type) where
  entries : Array (Entry K V)
  capacity : Nat
  m_size : Nat

variable {K V : Type} [DecidableEq K] [Inhabited K] [Inhabited V]

/-- map.new n models the constructor `map()` with `InitialSize = n`:
`entries = new Entry[n]()` (all slots default-constructed, state 0),
`capacity = n`, `m_size = 0`. -/
def map.new (K V : Type) [Inhabited K] [Inhabited V] (n : Nat) : map K V :=
  ⟨Array.mkArray n default, n, 0⟩

/-- entryAt m i models the array read `entries[i]`.  All reads issued by the
operations below are bound-checked first, so the `default` fallback of `getD`
is never observed. -/
def entryAt (m : map K V) (i : Nat) : Entry K V :=
  m.entries.getD i default

/-- hash_fn w value models the C++ template `hash_fn<T>` for a `T` that is a
`w`-byte unsigned integer laid out little-endian (the x86 layout the source
targets): it folds the `w` object-representation bytes of `value` through the
accumulator `hash = (hash << 5) + hash + byte` in `size_t` (64-bit wrapping)
arithmetic. -/
def hash_fn (w : Nat) (value : Nat) : Nat :=
  (List.range w).foldl (fun h i => ((h <<< 5) + h + value / 256 ^ i % 256) % 2 ^ 64) 0

/-- log2fuel is a fuel-driven floor of the base-two logarithm: fuel n is
always enough because the argument halves at every step. -/
def log2fuel : Nat → Nat → Nat
  | 0, _ => 0
  | fuel + 1, n => if n < 2 then 0 else log2fuel fuel (n / 2) + 1

/-- floorLog2 n is the floor of the base-two logarithm of n (0 at 0). -/
def floorLog2 (n : Nat) : Nat :=
  log2fuel n n

/-- roundMul u n rounds n to the nearest multiple of u, ties to the even
multiple: the significand rounding step of a binary floating-point
conversion with unit in the last place u. -/
def roundMul (u n : Nat) : Nat :=
  if 2 * (n % u) < u then (n / u) * u
  else if u < 2 * (n % u) then (n / u + 1) * u
  else (if (n / u) % 2 = 0 then n / u else n / u + 1) * u

/-- toFloat32 n is the value of the C++ conversion of the integer n to
IEEE-754 single precision: integers up to 2 ^ 24 are exactly representable;
a larger n is rounded to the nearest multiple of its unit in the last place
2 ^ (floorLog2 n - 23), ties to even.  (All counts in this development are
at most 2 ^ 32, far below the overflow threshold.) -/
def toFloat32 (n : Nat) : Nat :=
  if n ≤ 2 ^ 24 then n else roundMul (2 ^ (floorLog2 n - 23)) n

/-- TermEntry e key is the exit condition of the probe loop in `find_slot`:
the slot is not occupied, or it is occupied with the key being looked up. -/
def TermEntry (e : Entry K V) (key : K) : Prop :=
  e.state ≠ 1 ∨ e.first = key

instance (e : Entry K V) (key : K) : Decidable (TermEntry e key) := by
  unfold TermEntry; infer_instance

/-- find_slot_loop models the `for (size_t i = 0; ; i++)` loop of
`find_slot`, with explicit fuel.  The state is `(i, index)`; one step checks
`entries[index]` and advances to `(i + 1, (index + i) & (capacity - 1))`.
Fuel exhaustion or an out-of-bounds read returns `none`. -/
def find_slot_loop (m : map K V) (key : K) : Nat → Nat → Nat → Option Nat
  | 0, _, _ => none
  | fuel + 1, i, index =>
    if index < m.entries.size then
      if TermEntry (entryAt m index) key then some index
      else find_slot_loop m key fuel (i + 1) ((index + i) &&& (m.capacity - 1))
    else none

/-- find_slot models `map::find_slot`: start at the home slot
`hash(key) & (capacity - 1)` with attempt counter `i = 0`.  Fuel
`capacity + 1` is exact: the probe sequence covers the whole table within
`capacity + 1` examinations (proved below). -/
def find_slot (hash : K → Nat) (m : map K V) (key : K) : Option Nat :=
  find_slot_loop m key (m.capacity + 1) 0 (hash key &&& (m.capacity - 1))

/-- find_slot_trace is the list of slot indices examined by
`find_slot_loop` from a given state, the terminating slot included. -/
def find_slot_trace (m : map K V) (key : K) : Nat → Nat → Nat → List Nat
  | 0, _, _ => []
  | fuel + 1, i, index =>
    if index < m.entries.size then
      if TermEntry (entryAt m index) key then [index]
      else index :: find_slot_trace m key fuel (i + 1) ((index + i) &&& (m.capacity - 1))
    else []

/-- find_slot_examined is the full list of slot indices `find_slot`
examines for a key. -/
def find_slot_examined (hash : K → Nat) (m : map K V) (key : K) : List Nat :=
  find_slot_trace m key (m.capacity + 1) 0 (hash key &&& (m.capacity - 1))

/-- probeFrom cap i index n is the slot index the probe loop examines `n`
steps after being in state `(i, index)`: the same advancement
`index = (index + i) & (cap - 1)`, `i = i + 1` as `find_slot_loop`, as a pure
function of the step count. -/
def probeFrom (cap i index : Nat) : Nat → Nat
  | 0 => index
  | n + 1 => (probeFrom cap i index n + (i + n)) &&& (cap - 1)

/-- tri n is the n-th triangular number, the total probe displacement after
`n` advancement steps of the loop (increments 0, 1, ..., n - 1 sum to
`tri (n - 1)`). -/
def tri : Nat → Nat
  | 0 => 0
  | n + 1 => tri n + (n + 1)

/-- insert_no_grow models the body of `operator[]` after the growth check,
composed with an assignment `m[key] = val` through the returned reference:
resolve the slot; if it is not occupied insert `(key, default)` and increment
`m_size`; finally store `val` in the slot's `second` field. -/
def insert_no_grow (hash : K → Nat) (m : map K V) (key : K) (val : V) : map K V :=
  match find_slot hash m key with
  | none => m
  | some idx =>
    if (entryAt m idx).state ≠ 1 then
      { m with entries := m.entries.setD idx ⟨1, key, val⟩, m_size := m.m_size + 1 }
    else
      { m with entries := m.entries.setD idx { entryAt m idx with second := val } }

/-- rehashStep is the body of the reinsertion loop of `grow`: occupied old
entries are reinserted (key and value moved) through `operator[]`, other
entries are skipped. -/
def rehashStep (hash : K → Nat) (acc : map K V) (e : Entry K V) : map K V :=
  if e.state = 1 then insert_no_grow hash acc e.first e.second else acc

/-- grow models `map::grow`: allocate a fresh default-initialised table of
twice the capacity, reset `m_size`, and reinsert every occupied old entry in
slot order through `operator[]`.  The inner load-factor check of those
`operator[]` calls never fires (lemma `grow_inner_check_silent`), so the
check-free path `insert_no_grow` is an exact model of the rehash. -/
def grow (hash : K → Nat) (m : map K V) : map K V :=
  m.entries.toList.foldl (rehashStep hash) (map.new K V (2 * m.capacity))

/-- bracketAssign models the statement `m[key] = val`: `operator[]` with its
growth check `(float)(m_size + 1) / capacity > 0.75f` (the numerator cast
rounded by toFloat32, the rest exact for the power-of-two capacities the
map maintains), followed by assignment through the returned reference. -/
def bracketAssign (hash : K → Nat) (m : map K V) (key : K) (val : V) : map K V :=
  insert_no_grow hash
    (if 3 * m.capacity < 4 * toFloat32 (m.m_size + 1) then grow hash m else m) key val

/-- bracketRefResolve is the slot-resolution and read part of an
`operator[]` call whose returned reference is only read: resolve the slot,
insert `(key, default)` when it is not occupied, and return the value the
reference denotes. -/
def bracketRefResolve (hash : K → Nat) (m1 : map K V) (key : K) : map K V × V :=
  match find_slot hash m1 key with
  | none => (m1, default)
  | some idx =>
    if (entryAt m1 idx).state ≠ 1 then
      ({ m1 with entries := m1.entries.setD idx ⟨1, key, default⟩,
                 m_size := m1.m_size + 1 }, default)
    else (m1, (entryAt m1 idx).second)

/-- bracketRef models an `operator[]` call whose returned reference is only
read: grow if the load check fires, then resolve; the result is the map
after the call together with the value the returned reference denotes. -/
def bracketRef (hash : K → Nat) (m : map K V) (key : K) : map K V × V :=
  bracketRefResolve hash
    (if 3 * m.capacity < 4 * toFloat32 (m.m_size + 1) then grow hash m else m) key

/-- find models `map::find`: resolve the slot, return the stored value when
the slot is occupied with the key, the absent indicator (`none`, the model of
`nullptr`) otherwise.  The C++ function is `const noexcept`: it mutates
nothing, which the purely functional type records. -/
def find (hash : K → Nat) (m : map K V) (key : K) : Option V :=
  match find_slot hash m key with
  | none => none
  | some idx =>
    if (entryAt m idx).state = 1 ∧ (entryAt m idx).first = key then
      some (entryAt m idx).second
    else none

/-- clear models `map::clear` with `InitialSize = initialSize`: release the
table and reallocate `initialSize` default-constructed slots, `m_size = 0`. -/
def clear (initialSize : Nat) (_m : map K V) : map K V :=
  map.new K V initialSize

/-- moveAssign dst src models `dst = std::move(src)`: `dst` takes the
source's table, capacity and size; the source is left with no table,
capacity 0 and size 0.  Result is `(new dst, new src)`. -/
def moveAssign (_dst src : map K V) : map K V × map K V :=
  (src, ⟨#[], 0, 0⟩)

/-- map.size models `map::size`. -/
def map.size (m : map K V) : Nat := m.m_size

/-- assocFind l key is the value held by the first occupied entry of l whose
key is `key`: the reference association-list semantics of a slot table. -/
def assocFind (l : List (Entry K V)) (key : K) : Option V :=
  (l.find? (fun e => e.state == 1 && e.first == key)).map (fun e => e.second)

/-- insertAll hash ps m performs the assignments `m[k] = v` for the pairs of
ps, in order. -/
def insertAll (hash : K → Nat) (ps : List (K × V)) (m : map K V) : map K V :=
  ps.foldl (fun acc p => bracketAssign hash acc p.1 p.2) m

/-- c6map n is the concrete scenario of the spec: starting from a
default-constructed map (InitialSize 8, `int` keys, 4 bytes each), perform
`m[i] = 100 + i` for i = 0, ..., n - 1. -/
def c6map (n : Nat) : map Nat Nat :=
  (List.range n).foldl (fun acc i => bracketAssign (hash_fn 4) acc i (100 + i)) (map.new Nat Nat 8)

/-- Reachable hash m: m is a state the default-constructed map (InitialSize
8) can reach under the public operations, the move assignment included; a
moved-from source is left with no table, capacity 0 and size 0. -/
inductive Reachable (hash : K → Nat) : map K V → Prop where
  | init : Reachable hash (map.new K V 8)
  | insert (key : K) (val : V) {m : map K V} :
      Reachable hash m → Reachable hash (bracketAssign hash m key val)
  | cleared {m : map K V} : Reachable hash m → Reachable hash (clear 8 m)
  | moved_dst {d m : map K V} : Reachable hash m → Reachable hash (moveAssign d m).1
  | moved_src {d m : map K V} : Reachable hash m → Reachable hash (moveAssign d m).2

/-- ReachableCore hash m: m is reachable from the default constructor using
construction, insertion and clear only (no ownership transfer). -/
inductive ReachableCore (hash : K → Nat) : map K V → Prop where
  | init : ReachableCore hash (map.new K V 8)
  | insert (key : K) (val : V) {m : map K V} :
      ReachableCore hash m → ReachableCore hash (bracketAssign hash m key val)
  | cleared {m : map K V} : ReachableCore hash m → ReachableCore hash (clear 8 m)

/-- WF hash m is the well-formedness invariant every map reachable by
construction, insertion and clear satisfies: the array has exactly
`capacity` slots; the capacity is a power of two (at least 2); `m_size`
counts the occupied slots; the load bound maintained by the float growth
check holds, `4 * toFloat32 m_size ≤ 3 * capacity` (exactly the 0.75 bound
while `m_size ≤ 2 ^ 24`); occupied keys are pairwise distinct; and every
occupied slot is found
by probing for its own key (no key is masked by an earlier empty slot on its
probe path). -/
structure WF (hash : K → Nat) (m : map K V) : Prop where
  size_eq : m.entries.size = m.capacity
  pow2 : ∃ kk, 1 ≤ kk ∧ m.capacity = 2 ^ kk
  count : m.m_size = (m.entries.toList.filter (fun e => e.state == 1)).length
  load : 4 * toFloat32 m.m_size ≤ 3 * m.capacity
  distinct : ∀ i, i < m.entries.size → ∀ j, j < m.entries.size →
    (entryAt m i).state = 1 → (entryAt m j).state = 1 →
    (entryAt m i).first = (entryAt m j).first → i = j
  findable : ∀ i, i < m.entries.size → (entryAt m i).state = 1 →
    find_slot hash m ((entryAt m i).first) = some i

/-! Bitmask arithmetic: with a power-of-two capacity, the mask
`& (capacity - 1)` is reduction mod the capacity. -/

theorem land_two_pow_sub_one (x k : Nat) : x &&& (2 ^ k - 1) = x % 2 ^ k := by
  apply Nat.eq_of_testBit_eq
  intro i
  rw [Nat.testBit_land, Nat.testBit_two_pow_sub_one, Nat.testBit_mod_two_pow]
  rw [Bool.and_comm]

theorem land_two_pow_sub_one_lt (x k : Nat) : x &&& (2 ^ k - 1) < 2 ^ k := by
  rw [land_two_pow_sub_one]
  exact Nat.mod_lt _ (Nat.pos_pow_of_pos _ (by omega))

theorem land_two_pow_sub_one_of_lt {x k : Nat} (h : x < 2 ^ k) :
    x &&& (2 ^ k - 1) = x := by
  rw [land_two_pow_sub_one]
  exact Nat.mod_eq_of_lt h

/-! The single-precision conversion: basic bounds used to reason about the
growth check. -/

theorem log2fuel_bounds : ∀ fuel n, 1 ≤ n → n ≤ fuel →
    2 ^ log2fuel fuel n ≤ n ∧ n < 2 ^ (log2fuel fuel n + 1) := by
  intro fuel
  induction fuel with
  | zero => intro n h1 h2; omega
  | succ fuel ih =>
    intro n h1 h2
    show 2 ^ (if n < 2 then 0 else log2fuel fuel (n / 2) + 1) ≤ n ∧
      n < 2 ^ ((if n < 2 then 0 else log2fuel fuel (n / 2) + 1) + 1)
    by_cases hn : n < 2
    · rw [if_pos hn]
      norm_num
      omega
    · rw [if_neg hn]
      obtain ⟨hl, hr⟩ := ih (n / 2) (by omega) (by omega)
      constructor
      · rw [pow_succ]
        omega
      · rw [pow_succ]
        omega

theorem floorLog2_bounds (n : Nat) (h : 1 ≤ n) :
    2 ^ floorLog2 n ≤ n ∧ n < 2 ^ (floorLog2 n + 1) :=
  log2fuel_bounds n n h (Nat.le_refl n)

theorem roundMul_dvd (u n : Nat) (hu : 0 < u) (hdvd : u ∣ n) : roundMul u n = n := by
  have hr : n % u = 0 := Nat.mod_eq_zero_of_dvd hdvd
  unfold roundMul
  rw [hr, if_pos (by omega)]
  exact Nat.div_mul_cancel hdvd

theorem roundMul_le (u n : Nat) (hu : 0 < u) : roundMul u n ≤ n + u / 2 := by
  have hdm : u * (n / u) + n % u = n := Nat.div_add_mod n u
  have hr : n % u < u := Nat.mod_lt n hu
  have hA : n / u * u = u * (n / u) := Nat.mul_comm _ _
  unfold roundMul
  split
  · next h =>
    have h1 : n / u * u ≤ n := Nat.div_mul_le_self n u
    omega
  · split
    · next h h2 =>
      have h1 : (n / u + 1) * u = n / u * u + u := by ring
      omega
    · next h h2 =>
      have h1 : (n / u + 1) * u = n / u * u + u := by ring
      split
      · omega
      · omega

theorem le_roundMul (u n : Nat) (hu : 0 < u) : n ≤ roundMul u n + u / 2 := by
  have hdm : u * (n / u) + n % u = n := Nat.div_add_mod n u
  have hr : n % u < u := Nat.mod_lt n hu
  have hA : n / u * u = u * (n / u) := Nat.mul_comm _ _
  unfold roundMul
  split
  · next h => omega
  · split
    · next h h2 =>
      have h1 : (n / u + 1) * u = n / u * u + u := by ring
      omega
    · next h h2 =>
      have h1 : (n / u + 1) * u = n / u * u + u := by ring
      split
      · omega
      · omega

theorem roundMul_le_of_dvd (u n m : Nat) (hu : 0 < u) (hdvd : u ∣ m) (hnm : n ≤ m) :
    roundMul u n ≤ m := by
  obtain ⟨k, rfl⟩ := hdvd
  have hdm : u * (n / u) + n % u = n := Nat.div_add_mod n u
  have hr : n % u < u := Nat.mod_lt n hu
  have hA : n / u * u = u * (n / u) := Nat.mul_comm _ _
  have hqk : n / u ≤ k := by
    have h1 := Nat.div_le_div_right (c := u) hnm
    rwa [Nat.mul_div_cancel_left k hu] at h1
  have hup : (0 < n % u) → (n / u + 1) * u ≤ u * k := by
    intro hr1
    have hqk2 : n / u < k := by
      rcases Nat.lt_or_ge (n / u) k with h9 | h9
      · exact h9
      · have h10 : n / u = k := by omega
        rw [h10] at hdm
        omega
    have h1 : (n / u + 1) * u = n / u * u + u := by ring
    have h2 : (n / u + 1) * u ≤ k * u := Nat.mul_le_mul_right u (by omega)
    have h3 : k * u = u * k := Nat.mul_comm _ _
    omega
  unfold roundMul
  split
  · next h =>
    have h1 : n / u * u ≤ n := Nat.div_mul_le_self n u
    omega
  · split
    · next h h2 =>
      exact hup (by omega)
    · next h h2 =>
      have h3 := hup (by omega)
      have h1 : (n / u + 1) * u = n / u * u + u := by ring
      split
      · omega
      · omega

theorem toFloat32_id {n : Nat} (h : n ≤ 2 ^ 24) : toFloat32 n = n := by
  unfold toFloat32
  rw [if_pos h]

theorem floorLog2_ge_24 {n : Nat} (h : 2 ^ 24 < n) : 24 ≤ floorLog2 n := by
  obtain ⟨_, hr⟩ := floorLog2_bounds n (by omega)
  by_contra hcon
  have h1 : floorLog2 n + 1 ≤ 24 := by omega
  have h2 : 2 ^ (floorLog2 n + 1) ≤ 2 ^ 24 := Nat.pow_le_pow_right (by omega) h1
  omega

theorem toFloat32_le (n : Nat) : toFloat32 n ≤ n + n / 2 ^ 24 := by
  unfold toFloat32
  split
  · omega
  · next h =>
    have h1 : 2 ^ 24 < n := by omega
    have hb := floorLog2_bounds n (by omega)
    have he := floorLog2_ge_24 h1
    have hupos : 0 < 2 ^ (floorLog2 n - 23) := Nat.pos_pow_of_pos _ (by omega)
    have h2 := roundMul_le (2 ^ (floorLog2 n - 23)) n hupos
    have h3 : 2 ^ (floorLog2 n - 23) / 2 = 2 ^ (floorLog2 n - 24) := by
      have h9 : floorLog2 n - 23 = (floorLog2 n - 24) + 1 := by omega
      rw [h9, pow_succ]
      omega
    have h4 : 2 ^ (floorLog2 n - 24) ≤ n / 2 ^ 24 := by
      rw [Nat.le_div_iff_mul_le (show 0 < 2 ^ 24 by positivity)]
      have h5 : 2 ^ (floorLog2 n - 24) * 2 ^ 24 = 2 ^ floorLog2 n := by
        rw [← pow_add]
        congr 1
        omega
      omega
    omega

theorem toFloat32_ge (n : Nat) : n ≤ toFloat32 n + n / 2 ^ 24 := by
  unfold toFloat32
  split
  · omega
  · next h =>
    have h1 : 2 ^ 24 < n := by omega
    have hb := floorLog2_bounds n (by omega)
    have he := floorLog2_ge_24 h1
    have hupos : 0 < 2 ^ (floorLog2 n - 23) := Nat.pos_pow_of_pos _ (by omega)
    have h2 := le_roundMul (2 ^ (floorLog2 n - 23)) n hupos
    have h3 : 2 ^ (floorLog2 n - 23) / 2 = 2 ^ (floorLog2 n - 24) := by
      have h9 : floorLog2 n - 23 = (floorLog2 n - 24) + 1 := by omega
      rw [h9, pow_succ]
      omega
    have h4 : 2 ^ (floorLog2 n - 24) ≤ n / 2 ^ 24 := by
      rw [Nat.le_div_iff_mul_le (show 0 < 2 ^ 24 by positivity)]
      have h5 : 2 ^ (floorLog2 n - 24) * 2 ^ 24 = 2 ^ floorLog2 n := by
        rw [← pow_add]
        congr 1
        omega
      omega
    omega

theorem ulp_dvd_of_lt {n a b : Nat} (h24 : 2 ^ 24 < n) (ha : a < 2 ^ 24)
    (hnm : n ≤ a * 2 ^ b) : 2 ^ (floorLog2 n - 23) ∣ a * 2 ^ b := by
  have hb := floorLog2_bounds n (by omega)
  have he2 : floorLog2 n ≤ 23 + b := by
    by_contra hcon
    have h5 : 24 + b ≤ floorLog2 n := by omega
    have h6 : 2 ^ (24 + b) ≤ 2 ^ floorLog2 n := Nat.pow_le_pow_right (by omega) h5
    have h7 : a * 2 ^ b < 2 ^ 24 * 2 ^ b :=
      (Nat.mul_lt_mul_right (Nat.pos_pow_of_pos _ (show 0 < 2 by omega))).mpr ha
    rw [← pow_add] at h7
    omega
  exact Dvd.dvd.mul_left (pow_dvd_pow 2 (by omega)) a

theorem toFloat32_le_of_le {n a b : Nat} (ha : a < 2 ^ 24) (h : n ≤ a * 2 ^ b) :
    toFloat32 n ≤ a * 2 ^ b := by
  unfold toFloat32
  split
  · exact h
  · next hn =>
    exact roundMul_le_of_dvd _ _ _ (Nat.pos_pow_of_pos _ (by omega))
      (ulp_dvd_of_lt (by omega) ha h) h

theorem toFloat32_rep (a b : Nat) (ha : a < 2 ^ 24) :
    toFloat32 (a * 2 ^ b) = a * 2 ^ b := by
  unfold toFloat32
  split
  · rfl
  · next hn =>
    exact roundMul_dvd _ _ (Nat.pos_pow_of_pos _ (by omega))
      (ulp_dvd_of_lt (by omega) ha (Nat.le_refl _))

theorem toFloat32_pow2 (k : Nat) : toFloat32 (2 ^ k) = 2 ^ k := by
  have h := toFloat32_rep 1 k (by norm_num)
  rwa [Nat.one_mul] at h

/-- The first point where the float growth check diverges from the exact
rational one: at capacity 2 ^ 25 with m_size + 1 = 3 * 2 ^ 23 + 1 the cast
rounds the count down (ties to even), the check does not fire, and the
insertion completes with an exact load just above 0.75. -/
theorem float_check_rounds_down_at_2_pow_25 :
    toFloat32 (3 * 2 ^ 23 + 1) = 3 * 2 ^ 23 ∧
    ¬ 3 * 2 ^ 25 < 4 * toFloat32 (3 * 2 ^ 23 + 1) ∧
    3 * 2 ^ 25 < 4 * (3 * 2 ^ 23 + 1) := by decide

/-! Triangular numbers: the cumulative displacement of the quadratic probe.
The key fact is that n ↦ tri n is injective modulo a power of two, hence the
first 2 ^ k triangular numbers are a permutation of the residues. -/

theorem two_mul_tri (n : Nat) : 2 * tri n = n * (n + 1) := by
  induction n with
  | zero => rfl
  | succ n ih => simp only [tri]; ring_nf; ring_nf at ih; omega

theorem tri_add (b d : Nat) : tri (b + d) = tri b + d * b + tri d := by
  induction d with
  | zero => simp [tri]
  | succ d ih =>
    have : b + (d + 1) = (b + d) + 1 := by omega
    rw [this]
    simp only [tri, ih]
    ring

theorem tri_sub_mul (b d : Nat) : 2 * (tri (b + d) - tri b) = d * (2 * b + d + 1) := by
  rw [tri_add]
  have h2 : 2 * tri d = d * (d + 1) := two_mul_tri d
  have : tri b + d * b + tri d - tri b = d * b + tri d := by omega
  rw [this]
  ring_nf
  ring_nf at h2
  omega

theorem tri_le_tri (b d : Nat) : tri b ≤ tri (b + d) := by
  induction d with
  | zero => simp
  | succ d ih =>
    have h1 : b + (d + 1) = (b + d) + 1 := by omega
    rw [h1]; simp only [tri]; omega

theorem tri_add_cancel {k b d : Nat} (hbd : b + d < 2 ^ k)
    (h : tri b % 2 ^ k = tri (b + d) % 2 ^ k) : d = 0 := by
  have hmod : tri b ≡ tri (b + d) [MOD 2 ^ k] := h
  have hdvd : 2 ^ k ∣ tri (b + d) - tri b := (Nat.modEq_iff_dvd' (tri_le_tri b d)).mp hmod
  have hdvd2 : 2 ^ (k + 1) ∣ d * (2 * b + d + 1) := by
    rw [← tri_sub_mul, pow_succ, Nat.mul_comm (2 ^ k) 2]
    exact Nat.mul_dvd_mul_left 2 hdvd
  by_contra hd
  have hklt : 2 ^ (k + 1) = 2 ^ k + 2 ^ k := by rw [pow_succ]; omega
  rcases Nat.even_or_odd d with hev | hodd
  · -- d even, so 2 * b + d + 1 is odd: the power of two must divide d
    have hco : Nat.Coprime (2 ^ (k + 1)) (2 * b + d + 1) := by
      apply Nat.Coprime.pow_left
      rw [Nat.coprime_two_left]
      rcases hev with ⟨e, he⟩
      exact ⟨b + e, by omega⟩
    have := Nat.le_of_dvd (by omega) (hco.dvd_of_dvd_mul_right hdvd2)
    omega
  · -- d odd: the power of two must divide 2 * b + d + 1 < 2 ^ (k + 1)
    have hco : Nat.Coprime (2 ^ (k + 1)) d := by
      apply Nat.Coprime.pow_left
      rw [Nat.coprime_two_left]
      exact hodd
    have := Nat.le_of_dvd (by omega) (hco.dvd_of_dvd_mul_left hdvd2)
    omega

theorem tri_inj {k a b : Nat} (ha : a < 2 ^ k) (hb : b < 2 ^ k)
    (h : tri a % 2 ^ k = tri b % 2 ^ k) : a = b := by
  rcases Nat.le_total b a with hba | hab
  · obtain ⟨d, rfl⟩ := Nat.le.dest hba
    have := tri_add_cancel (k := k) (show b + d < 2 ^ k by omega) h.symm
    omega
  · obtain ⟨d, rfl⟩ := Nat.le.dest hab
    have := tri_add_cancel (k := k) (by omega) h
    omega

theorem probe_mod_surj {k : Nat} (h t : Nat) (ht : t < 2 ^ k) :
    ∃ n, n < 2 ^ k ∧ (h + tri n) % 2 ^ k = t := by
  classical
  have hpos : 0 < 2 ^ k := Nat.pos_pow_of_pos _ (by omega)
  have hinj : Set.InjOn (fun n => (h + tri n) % 2 ^ k) (Finset.range (2 ^ k)) := by
    intro a ha b hb hab
    simp only [Finset.coe_range, Set.mem_Iio] at ha hb
    exact tri_inj ha hb (Nat.ModEq.add_left_cancel (Nat.ModEq.refl h) hab)
  have himg : Finset.image (fun n => (h + tri n) % 2 ^ k) (Finset.range (2 ^ k)) =
      Finset.range (2 ^ k) := by
    apply Finset.eq_of_subset_of_card_le
    · intro x hx
      rcases Finset.mem_image.mp hx with ⟨n, _, rfl⟩
      exact Finset.mem_range.mpr (Nat.mod_lt _ hpos)
    · rw [Finset.card_image_of_injOn hinj, Finset.card_range]
  have hmem : t ∈ Finset.image (fun n => (h + tri n) % 2 ^ k) (Finset.range (2 ^ k)) := by
    rw [himg]; exact Finset.mem_range.mpr ht
  rcases Finset.mem_image.mp hmem with ⟨n, hn, hfn⟩
  exact ⟨n, Finset.mem_range.mp hn, hfn⟩

/-! The generalised probe sequence and its relation to triangular numbers. -/

theorem probeFrom_succ_shift (cap i index n : Nat) :
    probeFrom cap i index (n + 1) =
      probeFrom cap (i + 1) ((index + i) &&& (cap - 1)) n := by
  induction n with
  | zero => rfl
  | succ n ih =>
    show (probeFrom cap i index (n + 1) + (i + (n + 1))) &&& (cap - 1) =
      (probeFrom cap (i + 1) ((index + i) &&& (cap - 1)) n + ((i + 1) + n)) &&& (cap - 1)
    rw [ih]
    have h1 : i + (n + 1) = (i + 1) + n := by omega
    rw [h1]

theorem probeFrom_tri {k : Nat} (h : Nat) (hh : h < 2 ^ k) (n : Nat) :
    probeFrom (2 ^ k) 0 h (n + 1) = (h + tri n) % 2 ^ k := by
  induction n with
  | zero =>
    show (h + (0 + 0)) &&& (2 ^ k - 1) = (h + tri 0) % 2 ^ k
    simp [tri, land_two_pow_sub_one]
  | succ n ih =>
    show (probeFrom (2 ^ k) 0 h (n + 1) + (0 + (n + 1))) &&& (2 ^ k - 1) = _
    rw [ih, land_two_pow_sub_one, Nat.mod_add_mod]
    have h1 : h + tri n + (0 + (n + 1)) = h + tri (n + 1) := by
      show h + tri n + (0 + (n + 1)) = h + (tri n + (n + 1))
      omega
    rw [h1]

theorem probeFrom_succ_lt {k : Nat} (i index n : Nat) :
    probeFrom (2 ^ k) i index (n + 1) < 2 ^ k := by
  show (probeFrom _ i index n + (i + n)) &&& (2 ^ k - 1) < 2 ^ k
  exact land_two_pow_sub_one_lt _ _

/-! Reading an entry of a map whose array was updated with setD. -/

theorem getD_setD {α : Type} (a : Array α) (t i : Nat) (e d : α) :
    (a.setD t e).getD i d = if t = i ∧ t < a.size then e else a.getD i d := by
  by_cases ht : t < a.size
  · have hset : a.setD t e = a.set ⟨t, ht⟩ e := dif_pos ht
    have hsz : (a.set ⟨t, ht⟩ e).size = a.size := Array.size_set a ⟨t, ht⟩ e
    by_cases hi : i < a.size
    · have h1 : (a.setD t e).getD i d = (a.set ⟨t, ht⟩ e).get ⟨i, by rw [hsz]; exact hi⟩ := by
        rw [hset]; exact dif_pos (by rw [hsz]; exact hi)
      have h2 : a.getD i d = a.get ⟨i, hi⟩ := dif_pos hi
      rw [h1, h2, Array.get_eq_getElem, Array.get_eq_getElem, Array.get_set a ⟨t, ht⟩ i hi e]
      by_cases hti : t = i
      · rw [if_pos hti, if_pos ⟨hti, ht⟩]
      · rw [if_neg hti, if_neg (by tauto)]
    · have h1 : (a.setD t e).getD i d = d := by
        rw [hset]; exact dif_neg (by rw [hsz]; exact hi)
      have h2 : a.getD i d = d := dif_neg hi
      have hti : ¬ (t = i ∧ t < a.size) := by
        rintro ⟨rfl, _⟩; exact hi ht
      rw [h1, if_neg hti, h2]
  · have hset : a.setD t e = a := dif_neg ht
    rw [hset, if_neg (by tauto)]

theorem entryAt_eq_getElem (m : map K V) (i : Nat) (h : i < m.entries.size) :
    entryAt m i = m.entries[i] := by
  unfold entryAt Array.getD
  rw [dif_pos h, Array.get_eq_getElem]

theorem entryAt_setD_self {m m2 : map K V} {t : Nat} {e : Entry K V}
    (hent : m2.entries = m.entries.setD t e) (ht : t < m.entries.size) :
    entryAt m2 t = e := by
  unfold entryAt
  rw [hent, getD_setD, if_pos ⟨rfl, ht⟩]

theorem entryAt_setD_other {m m2 : map K V} {t : Nat} {e : Entry K V}
    (hent : m2.entries = m.entries.setD t e) (i : Nat) (hne : t ≠ i) :
    entryAt m2 i = entryAt m i := by
  unfold entryAt
  rw [hent, getD_setD, if_neg (by tauto)]

/-! Behaviour of the probe loop. -/

theorem find_slot_loop_some (m : map K V) (key : K) :
    ∀ fuel i index r, find_slot_loop m key fuel i index = some r →
      r < m.entries.size ∧ TermEntry (entryAt m r) key := by
  intro fuel
  induction fuel with
  | zero => intro i index r h; simp [find_slot_loop] at h
  | succ fuel ih =>
    intro i index r h
    simp only [find_slot_loop] at h
    by_cases hb : index < m.entries.size
    · rw [if_pos hb] at h
      by_cases ht : TermEntry (entryAt m index) key
      · rw [if_pos ht] at h
        cases h
        exact ⟨hb, ht⟩
      · rw [if_neg ht] at h
        exact ih _ _ _ h
    · rw [if_neg hb] at h; cases h

theorem find_slot_loop_isSome (m : map K V) (key : K) :
    ∀ fuel i index,
      (∀ n, probeFrom m.capacity i index n < m.entries.size) →
      (∃ n, n < fuel ∧ TermEntry (entryAt m (probeFrom m.capacity i index n)) key) →
      ∃ r, find_slot_loop m key fuel i index = some r := by
  intro fuel
  induction fuel with
  | zero =>
    rintro i index _ ⟨n, hn, _⟩
    omega
  | succ fuel ih =>
    rintro i index hb ⟨n, hn, ht⟩
    simp only [find_slot_loop]
    have hb0 : index < m.entries.size := hb 0
    rw [if_pos hb0]
    by_cases ht0 : TermEntry (entryAt m index) key
    · rw [if_pos ht0]; exact ⟨index, rfl⟩
    · rw [if_neg ht0]
      apply ih
      · intro n2
        have := hb (n2 + 1)
        rwa [probeFrom_succ_shift] at this
      · rcases n with _ | n2
        · exact absurd ht ht0
        · refine ⟨n2, by omega, ?_⟩
          rw [← probeFrom_succ_shift]
          exact ht

theorem find_slot_loop_congr {m m2 : map K V} (key : K) {t : Nat} {e2 : Entry K V}
    (hent : m2.entries = m.entries.setD t e2) (hcap : m2.capacity = m.capacity) :
    ∀ fuel i index r,
      find_slot_loop m key fuel i index = some r →
      (t = r → TermEntry e2 key) →
      (t ≠ r → TermEntry (entryAt m t) key ∨ ¬ TermEntry e2 key) →
      find_slot_loop m2 key fuel i index = some r := by
  have hsz : m2.entries.size = m.entries.size := by rw [hent, Array.size_setD]
  intro fuel
  induction fuel with
  | zero => intro i index r h _ _; simp [find_slot_loop] at h
  | succ fuel ih =>
    intro i index r h h1 h2
    simp only [find_slot_loop] at h ⊢
    by_cases hb : index < m.entries.size
    · rw [if_pos hb] at h
      rw [if_pos (show index < m2.entries.size by rw [hsz]; exact hb)]
      by_cases hterm : TermEntry (entryAt m index) key
      · rw [if_pos hterm] at h
        cases h
        by_cases hti : t = index
        · subst hti
          rw [entryAt_setD_self hent hb, if_pos (h1 rfl)]
        · rw [entryAt_setD_other hent index hti, if_pos hterm]
      · rw [if_neg hterm] at h
        have hr := find_slot_loop_some m key fuel _ _ r h
        by_cases hti : t = index
        · subst hti
          have htr : t ≠ r := by
            intro hcon
            exact hterm (hcon ▸ hr.2)
          have hne2 : ¬ TermEntry e2 key := by
            rcases h2 htr with hc | hc
            · exact absurd hc hterm
            · exact hc
          rw [entryAt_setD_self hent hb, if_neg hne2, hcap]
          exact ih _ _ _ h h1 h2
        · rw [entryAt_setD_other hent index hti, if_neg hterm, hcap]
          exact ih _ _ _ h h1 h2
    · rw [if_neg hb] at h; cases h

/-! Auxiliary facts about lists and the default entry. -/

theorem default_entry_state : (default : Entry K V).state = 0 := rfl

theorem length_filter_set {α : Type} (p : α → Bool) :
    ∀ (l : List α) (n : Nat) (a d : α), n < l.length →
    ((l.set n a).filter p).length + (if p (l.getD n d) then 1 else 0) =
      (l.filter p).length + (if p a then 1 else 0) := by
  intro l
  induction l with
  | nil => intro n a d hn; cases hn
  | cons x xs ih =>
    intro n a d hn
    cases n with
    | zero =>
      simp only [List.set, List.getD_cons_zero, List.filter_cons]
      by_cases hpa : p a = true <;> by_cases hpx : p x = true <;>
        simp [hpa, hpx] <;> omega
    | succ n =>
      have hn2 : n < xs.length := by
        simp only [List.length_cons] at hn; omega
      have hih := ih n a d hn2
      simp only [List.set, List.getD_cons_succ, List.filter_cons]
      by_cases hpx : p x = true
      · rw [if_pos hpx, if_pos hpx]
        simp only [List.length_cons]
        omega
      · rw [if_neg hpx, if_neg hpx]
        omega

theorem toList_getD (a : Array α) (i : Nat) (d : α) :
    a.toList.getD i d = a.getD i d := by
  by_cases hi : i < a.size
  · have hlen : i < a.toList.length := by rw [Array.length_toList]; exact hi
    have h1 : a.toList.getD i d = a.toList[i] := List.getD_eq_getElem a.toList d hlen
    have h2 : a.getD i d = a.get ⟨i, hi⟩ := dif_pos hi
    rw [h1, h2, Array.get_eq_getElem, Array.getElem_toList]
  · have hlen : a.toList.length ≤ i := by rw [Array.length_toList]; omega
    have h1 : a.toList.getD i d = d := List.getD_eq_default a.toList d hlen
    have h2 : a.getD i d = d := dif_neg hi
    rw [h1, h2]

/-! Facts about WF maps and the probe resolution. -/

theorem WF.cap_pos {hash : K → Nat} {m : map K V} (hwf : WF hash m) : 2 ≤ m.capacity := by
  obtain ⟨kk, hkk, hc⟩ := hwf.pow2
  have h2 : 2 ^ 1 ≤ 2 ^ kk := Nat.pow_le_pow_right (by omega) hkk
  rw [hc]
  omega

theorem WF.size_le {hash : K → Nat} {m : map K V} (hwf : WF hash m) :
    m.m_size ≤ m.capacity := by
  rw [hwf.count, ← hwf.size_eq, ← Array.length_toList]
  exact List.length_filter_le _ _

theorem WF.size_lt {hash : K → Nat} {m : map K V} (hwf : WF hash m) :
    m.m_size < m.capacity := by
  have h1 := hwf.size_le
  rcases Nat.lt_or_ge m.m_size m.capacity with h | h
  · exact h
  · have hsz : m.m_size = m.capacity := by omega
    obtain ⟨kk, _, hc⟩ := hwf.pow2
    have hload := hwf.load
    rw [hsz, hc, toFloat32_pow2] at hload
    have hpos : 0 < 2 ^ kk := Nat.pos_pow_of_pos _ (by omega)
    omega

theorem find_slot_some_spec {hash : K → Nat} {m : map K V} {key : K} {r : Nat}
    (h : find_slot hash m key = some r) :
    r < m.entries.size ∧ TermEntry (entryAt m r) key :=
  find_slot_loop_some m key _ _ _ r h

theorem find_slot_congr {hash : K → Nat} {m m2 : map K V} {t : Nat} {e2 : Entry K V}
    (hent : m2.entries = m.entries.setD t e2) (hcap : m2.capacity = m.capacity)
    (key : K) (r : Nat) (hr : find_slot hash m key = some r)
    (h1 : t = r → TermEntry e2 key)
    (h2 : t ≠ r → TermEntry (entryAt m t) key ∨ ¬ TermEntry e2 key) :
    find_slot hash m2 key = some r := by
  unfold find_slot
  rw [hcap]
  exact find_slot_loop_congr key hent hcap _ _ _ _ hr h1 h2

theorem exists_free_slot {hash : K → Nat} {m : map K V} (hwf : WF hash m) :
    ∃ t, t < m.entries.size ∧ (entryAt m t).state ≠ 1 := by
  by_contra hcon
  push_neg at hcon
  have hall : ∀ e ∈ m.entries.toList, (e.state == 1) = true := by
    intro e he
    rcases List.mem_iff_getElem.mp he with ⟨n, hn, rfl⟩
    have hn2 : n < m.entries.size := by
      rw [← Array.length_toList]; exact hn
    have h1 : m.entries.toList[n] = entryAt m n := by
      rw [Array.getElem_toList hn2, entryAt_eq_getElem m n hn2]
    rw [h1, beq_iff_eq]
    exact hcon n hn2
  have hfil : m.entries.toList.filter (fun e => e.state == 1) = m.entries.toList :=
    List.filter_eq_self.mpr hall
  have hsz : m.m_size = m.capacity := by
    rw [hwf.count, hfil, Array.length_toList, hwf.size_eq]
  obtain ⟨kk, _, hc⟩ := hwf.pow2
  have hload := hwf.load
  rw [hsz, hc, toFloat32_pow2] at hload
  have hpos : 0 < 2 ^ kk := Nat.pos_pow_of_pos _ (by omega)
  omega

theorem find_slot_isSome {hash : K → Nat} {m : map K V} (hwf : WF hash m) (key : K)
    (hterm : ∃ t, t < m.entries.size ∧ TermEntry (entryAt m t) key) :
    ∃ r, find_slot hash m key = some r := by
  obtain ⟨kk, _, hcap⟩ := hwf.pow2
  obtain ⟨t, ht, htm⟩ := hterm
  have hsz : m.entries.size = 2 ^ kk := by rw [hwf.size_eq, hcap]
  have hhome : hash key &&& (2 ^ kk - 1) < 2 ^ kk := land_two_pow_sub_one_lt _ _
  unfold find_slot
  rw [hcap]
  apply find_slot_loop_isSome
  · intro n
    rcases n with _ | n
    · show hash key &&& (2 ^ kk - 1) < m.entries.size
      rw [hsz]; exact hhome
    · rw [hsz, hcap]
      exact probeFrom_succ_lt _ _ _
  · obtain ⟨n, hn, heq⟩ := probe_mod_surj (k := kk) (hash key &&& (2 ^ kk - 1)) t
      (by rw [← hsz]; exact ht)
    refine ⟨n + 1, by omega, ?_⟩
    rw [hcap, probeFrom_tri _ hhome, heq]
    exact htm

theorem find_slot_of_term_home {hash : K → Nat} (m : map K V) (key : K)
    (hb : hash key &&& (m.capacity - 1) < m.entries.size)
    (ht : TermEntry (entryAt m (hash key &&& (m.capacity - 1))) key) :
    find_slot hash m key = some (hash key &&& (m.capacity - 1)) := by
  show find_slot_loop m key (m.capacity + 1) 0 _ = _
  simp only [find_slot_loop]
  rw [if_pos hb, if_pos ht]

theorem find_some_spec {hash : K → Nat} {m : map K V} {key : K} {v : V}
    (h : find hash m key = some v) :
    ∃ i, i < m.entries.size ∧ (entryAt m i).state = 1 ∧
      (entryAt m i).first = key ∧ (entryAt m i).second = v := by
  cases hfs : find_slot hash m key with
  | none =>
    simp only [find, hfs] at h
    exact Option.noConfusion h
  | some idx =>
    simp only [find, hfs] at h
    by_cases hc : (entryAt m idx).state = 1 ∧ (entryAt m idx).first = key
    · rw [if_pos hc] at h
      cases h
      exact ⟨idx, (find_slot_some_spec hfs).1, hc.1, hc.2, rfl⟩
    · rw [if_neg hc] at h; cases h

theorem find_of_occupied {hash : K → Nat} {m : map K V} (hwf : WF hash m) {i : Nat}
    (hi : i < m.entries.size) (hst : (entryAt m i).state = 1) :
    find hash m ((entryAt m i).first) = some ((entryAt m i).second) := by
  have hfs : find_slot hash m ((entryAt m i).first) = some i := hwf.findable i hi hst
  simp [find, hfs, hst]

theorem find_eq_none_of_absent {hash : K → Nat} {m : map K V} {key : K}
    (habs : ∀ i, i < m.entries.size → (entryAt m i).state = 1 →
      (entryAt m i).first ≠ key) :
    find hash m key = none := by
  cases h : find hash m key with
  | none => rfl
  | some v =>
    obtain ⟨i, hi, hst, hfst, _⟩ := find_some_spec h
    exact absurd hfst (habs i hi hst)

theorem find_none_spec {hash : K → Nat} {m : map K V} {key : K} (hwf : WF hash m)
    (h : find hash m key = none) :
    ∀ j, j < m.entries.size → (entryAt m j).state = 1 → (entryAt m j).first ≠ key := by
  intro j hj hs hf
  have h2 := find_of_occupied hwf hj hs
  rw [hf, h] at h2
  cases h2

/-! The freshly constructed map. -/

theorem entryAt_new (n i : Nat) : entryAt (map.new K V n) i = (default : Entry K V) := by
  unfold map.new entryAt
  show (Array.mkArray n (default : Entry K V)).getD i default = default
  have hsz : (Array.mkArray n (default : Entry K V)).size = n := Array.size_mkArray n _
  by_cases hi : i < n
  · have h1 : (Array.mkArray n (default : Entry K V)).getD i default =
        (Array.mkArray n (default : Entry K V)).get ⟨i, by rw [hsz]; exact hi⟩ :=
      dif_pos (by rw [hsz]; exact hi)
    rw [h1, Array.get_eq_getElem, Array.getElem_mkArray]
  · exact dif_neg (by rw [hsz]; exact hi)

theorem find_slot_new (hash : K → Nat) (n : Nat) (hn : 1 ≤ n) (key : K) :
    find_slot hash (map.new K V n) key = some (hash key &&& (n - 1)) := by
  apply find_slot_of_term_home
  · show hash key &&& (n - 1) < (Array.mkArray n (default : Entry K V)).size
    rw [Array.size_mkArray]
    have := Nat.and_le_right (n := hash key) (m := n - 1)
    omega
  · rw [entryAt_new]
    exact Or.inl (by rw [default_entry_state]; omega)

theorem find_new (hash : K → Nat) (n : Nat) (hn : 1 ≤ n) (key : K) :
    find hash (map.new K V n) key = none := by
  simp only [find, find_slot_new hash n hn key, entryAt_new]
  rw [if_neg (by rw [default_entry_state]; omega)]

theorem WF_new (hash : K → Nat) (kk : Nat) (hkk : 1 ≤ kk) :
    WF hash (map.new K V (2 ^ kk)) := by
  constructor
  · exact Array.size_mkArray _ _
  · exact ⟨kk, hkk, rfl⟩
  · show 0 = (List.filter _ (Array.mkArray (2 ^ kk) (default : Entry K V)).toList).length
    rw [Array.toList_mkArray, List.filter_replicate,
      if_neg (by rw [default_entry_state]; decide)]
    rfl
  · show 4 * 0 ≤ 3 * 2 ^ kk
    omega
  · intro i _ j _ hsi
    rw [entryAt_new, default_entry_state] at hsi
    omega
  · intro i _ hsi
    rw [entryAt_new, default_entry_state] at hsi
    omega

/-! The two branches of operator[]: writing a fresh entry into a
non-occupied slot, and overwriting the value of the slot already holding the
key.  Each preserves well-formedness, makes the key map to the written value,
and leaves every other key's lookup unchanged. -/

theorem insert_fresh_spec {hash : K → Nat} {m : map K V} {key : K} {val : V} {idx : Nat}
    (hwf : WF hash m) (hroom : 4 * toFloat32 (m.m_size + 1) ≤ 3 * m.capacity)
    (hidx : find_slot hash m key = some idx)
    (hfree : ¬ (entryAt m idx).state = 1)
    (m2 : map K V)
    (hent : m2.entries = m.entries.setD idx ⟨1, key, val⟩)
    (hcap : m2.capacity = m.capacity)
    (hms : m2.m_size = m.m_size + 1) :
    WF hash m2 ∧ find hash m2 key = some val ∧
      ∀ key2, key2 ≠ key → find hash m2 key2 = find hash m key2 := by
  have hbound : idx < m.entries.size := (find_slot_some_spec hidx).1
  have hsz2 : m2.entries.size = m.entries.size := by rw [hent, Array.size_setD]
  have hnokey : ∀ j, j < m.entries.size → (entryAt m j).state = 1 →
      (entryAt m j).first ≠ key := by
    intro j hj hs hf
    have h1 := hwf.findable j hj hs
    rw [hf, hidx] at h1
    have h2 : idx = j := Option.some.inj h1
    subst h2
    exact hfree hs
  have he2 : entryAt m2 idx = ⟨1, key, val⟩ := entryAt_setD_self hent hbound
  have hfs2 : find_slot hash m2 key = some idx :=
    find_slot_congr hent hcap key idx hidx (fun _ => Or.inr rfl) (fun hne => absurd rfl hne)
  have hfind2 : find hash m2 key = some val := by
    simp [find, hfs2, he2]
  have hframe : ∀ key2, key2 ≠ key → find hash m2 key2 = find hash m key2 := by
    intro key2 hk2
    cases hfk : find hash m key2 with
    | some v2 =>
      obtain ⟨j, hj, hs, hf, hv⟩ := find_some_spec hfk
      have hne : idx ≠ j := by
        intro hcon
        subst hcon
        exact hfree hs
      have hfsj : find_slot hash m key2 = some j := by
        have := hwf.findable j hj hs
        rwa [hf] at this
      have hfs2j : find_slot hash m2 key2 = some j :=
        find_slot_congr hent hcap key2 j hfsj
          (fun hcon => absurd hcon hne)
          (fun _ => Or.inl (Or.inl hfree))
      have hej : entryAt m2 j = entryAt m j := entryAt_setD_other hent j hne
      simp only [find, hfs2j, hej]
      rw [if_pos ⟨hs, hf⟩, hv]
    | none =>
      apply find_eq_none_of_absent
      intro j hj hs
      by_cases hje : idx = j
      · subst hje
        rw [he2]
        intro hcon
        exact hk2 hcon.symm
      · rw [entryAt_setD_other hent j hje] at hs ⊢
        have hjm : j < m.entries.size := by rw [← hsz2]; exact hj
        exact find_none_spec hwf hfk j hjm hs
  refine ⟨⟨?_, ?_, ?_, ?_, ?_, ?_⟩, hfind2, hframe⟩
  · rw [hsz2, hcap, hwf.size_eq]
  · rw [hcap]; exact hwf.pow2
  · have htl : m2.entries.toList = m.entries.toList.set idx ⟨1, key, val⟩ := by
      rw [hent]
      unfold Array.setD
      rw [dif_pos hbound]
      exact Array.toList_set _ _ _
    have hlen : idx < m.entries.toList.length := by
      rw [Array.length_toList]; exact hbound
    have hflt := length_filter_set (fun e => e.state == 1) m.entries.toList idx
      ⟨1, key, val⟩ default hlen
    have hold : ((m.entries.toList.getD idx default).state == 1) = false := by
      rw [toList_getD]
      exact beq_eq_false_iff_ne.mpr hfree
    have hnew : (((⟨1, key, val⟩ : Entry K V).state == 1) = true) := rfl
    simp only [hold, hnew, Bool.false_eq_true, if_false, if_true] at hflt
    rw [htl, hms, hwf.count]
    omega
  · rw [hms, hcap]; exact hroom
  · intro i hi j hj hsi hsj hij
    by_cases hii : idx = i <;> by_cases hjj : idx = j
    · omega
    · subst hii
      rw [he2] at hij
      rw [entryAt_setD_other hent j hjj] at hsj hij
      have hjm : j < m.entries.size := by rw [← hsz2]; exact hj
      exact absurd hij.symm (hnokey j hjm hsj)
    · subst hjj
      rw [he2] at hij
      rw [entryAt_setD_other hent i hii] at hsi hij
      have him : i < m.entries.size := by rw [← hsz2]; exact hi
      exact absurd hij (hnokey i him hsi)
    · rw [entryAt_setD_other hent i hii] at hsi hij
      rw [entryAt_setD_other hent j hjj] at hsj hij
      have him : i < m.entries.size := by rw [← hsz2]; exact hi
      have hjm : j < m.entries.size := by rw [← hsz2]; exact hj
      exact hwf.distinct i him j hjm hsi hsj hij
  · intro j hj hsj
    by_cases hje : idx = j
    · subst hje
      rw [he2]
      exact hfs2
    · rw [entryAt_setD_other hent j hje] at hsj ⊢
      have hjm : j < m.entries.size := by rw [← hsz2]; exact hj
      have hfsj := hwf.findable j hjm hsj
      apply find_slot_congr hent hcap _ j hfsj
      · intro hcon; exact absurd hcon hje
      · intro _; exact Or.inl (Or.inl hfree)

theorem insert_overwrite_spec {hash : K → Nat} {m : map K V} {key : K} {val : V} {idx : Nat}
    (hwf : WF hash m)
    (hidx : find_slot hash m key = some idx)
    (hocc : (entryAt m idx).state = 1)
    (m2 : map K V)
    (hent : m2.entries = m.entries.setD idx { entryAt m idx with second := val })
    (hcap : m2.capacity = m.capacity)
    (hms : m2.m_size = m.m_size) :
    WF hash m2 ∧ find hash m2 key = some val ∧
      ∀ key2, key2 ≠ key → find hash m2 key2 = find hash m key2 := by
  have hbound : idx < m.entries.size := (find_slot_some_spec hidx).1
  have hkey : (entryAt m idx).first = key := by
    rcases (find_slot_some_spec hidx).2 with h | h
    · exact absurd hocc h
    · exact h
  have hsz2 : m2.entries.size = m.entries.size := by rw [hent, Array.size_setD]
  have he2 : entryAt m2 idx = { entryAt m idx with second := val } :=
    entryAt_setD_self hent hbound
  have hnterm : ∀ key2, key2 ≠ key →
      ¬ TermEntry { entryAt m idx with second := val } key2 := by
    intro key2 hk2 hT
    rcases hT with h | h
    · exact h hocc
    · have h9 : key2 = key := by rw [← h]; exact hkey
      exact hk2 h9
  have hfs2 : find_slot hash m2 key = some idx :=
    find_slot_congr hent hcap key idx hidx
      (fun _ => Or.inr hkey)
      (fun hne => absurd rfl hne)
  have hfind2 : find hash m2 key = some val := by
    simp only [find, hfs2, he2]
    rw [if_pos ⟨hocc, hkey⟩]
  have hframe : ∀ key2, key2 ≠ key → find hash m2 key2 = find hash m key2 := by
    intro key2 hk2
    cases hfk : find hash m key2 with
    | some v2 =>
      obtain ⟨j, hj, hs, hf, hv⟩ := find_some_spec hfk
      have hne : idx ≠ j := by
        intro hcon
        subst hcon
        have h9 : key2 = key := by rw [← hf]; exact hkey
        exact hk2 h9
      have hfsj : find_slot hash m key2 = some j := by
        have := hwf.findable j hj hs
        rwa [hf] at this
      have hfs2j : find_slot hash m2 key2 = some j :=
        find_slot_congr hent hcap key2 j hfsj
          (fun hcon => absurd hcon hne)
          (fun _ => Or.inr (hnterm key2 hk2))
      have hej : entryAt m2 j = entryAt m j := entryAt_setD_other hent j hne
      simp only [find, hfs2j, hej]
      rw [if_pos ⟨hs, hf⟩, hv]
    | none =>
      apply find_eq_none_of_absent
      intro j hj hs
      by_cases hje : idx = j
      · subst hje
        rw [he2]
        intro hcon
        have h9 : key2 = key := by rw [← hcon]; exact hkey
        exact hk2 h9
      · rw [entryAt_setD_other hent j hje] at hs ⊢
        have hjm : j < m.entries.size := by rw [← hsz2]; exact hj
        exact find_none_spec hwf hfk j hjm hs
  refine ⟨⟨?_, ?_, ?_, ?_, ?_, ?_⟩, hfind2, hframe⟩
  · rw [hsz2, hcap, hwf.size_eq]
  · rw [hcap]; exact hwf.pow2
  · have htl : m2.entries.toList =
        m.entries.toList.set idx { entryAt m idx with second := val } := by
      rw [hent]
      unfold Array.setD
      rw [dif_pos hbound]
      exact Array.toList_set _ _ _
    have hlen : idx < m.entries.toList.length := by
      rw [Array.length_toList]; exact hbound
    have hflt := length_filter_set (fun e => e.state == 1) m.entries.toList idx
      { entryAt m idx with second := val } default hlen
    have hold : ((m.entries.toList.getD idx default).state == 1) = true := by
      rw [toList_getD]
      exact beq_iff_eq.mpr hocc
    have hnew : (({ entryAt m idx with second := val } : Entry K V).state == 1) = true :=
      beq_iff_eq.mpr hocc
    simp only [hold, hnew, eq_self_iff_true, if_true] at hflt
    rw [htl, hms, hwf.count]
    dsimp only at hflt ⊢
    omega
  · rw [hms, hcap]; exact hwf.load
  · have hstate : ∀ x, (entryAt m2 x).state = (entryAt m x).state := by
      intro x
      by_cases hx : idx = x
      · subst hx; rw [he2]
      · rw [entryAt_setD_other hent x hx]
    have hfirst : ∀ x, (entryAt m2 x).first = (entryAt m x).first := by
      intro x
      by_cases hx : idx = x
      · subst hx; rw [he2]
      · rw [entryAt_setD_other hent x hx]
    intro i hi j hj hsi hsj hij
    rw [hstate] at hsi hsj
    rw [hfirst, hfirst] at hij
    have him : i < m.entries.size := by rw [← hsz2]; exact hi
    have hjm : j < m.entries.size := by rw [← hsz2]; exact hj
    exact hwf.distinct i him j hjm hsi hsj hij
  · intro j hj hsj
    by_cases hje : idx = j
    · subst hje
      have h9 : (entryAt m2 idx).first = key := by rw [he2]; exact hkey
      rw [h9]
      exact hfs2
    · rw [entryAt_setD_other hent j hje] at hsj ⊢
      have hjm : j < m.entries.size := by rw [← hsz2]; exact hj
      have hfsj := hwf.findable j hjm hsj
      have hkj : (entryAt m j).first ≠ key := by
        intro hcon
        have h9 := hwf.distinct j hjm idx hbound hsj hocc (by rw [hcon, hkey])
        exact hje h9.symm
      apply find_slot_congr hent hcap _ j hfsj
      · intro hcon; exact absurd hcon hje
      · intro _; exact Or.inr (hnterm _ hkj)

/-- insert_no_grow_spec: the check-free insertion path used on a well-formed
map with room for one more entry preserves well-formedness and the capacity,
makes the key look up the assigned value, leaves every other key's lookup
unchanged, and bumps the size exactly when the key was absent. -/
theorem insert_no_grow_spec (hash : K → Nat) (m : map K V) (key : K) (val : V)
    (hwf : WF hash m) (hroom : 4 * toFloat32 (m.m_size + 1) ≤ 3 * m.capacity) :
    WF hash (insert_no_grow hash m key val) ∧
    (insert_no_grow hash m key val).capacity = m.capacity ∧
    find hash (insert_no_grow hash m key val) key = some val ∧
    (∀ key2, key2 ≠ key →
      find hash (insert_no_grow hash m key val) key2 = find hash m key2) ∧
    (find hash m key = none → (insert_no_grow hash m key val).m_size = m.m_size + 1) ∧
    (find hash m key ≠ none → (insert_no_grow hash m key val).m_size = m.m_size) := by
  obtain ⟨tf, htf, hfree0⟩ := exists_free_slot hwf
  obtain ⟨idx, hidx⟩ := find_slot_isSome hwf key ⟨tf, htf, Or.inl hfree0⟩
  by_cases hocc : (entryAt m idx).state = 1
  · have hres : insert_no_grow hash m key val =
        { m with entries := m.entries.setD idx { entryAt m idx with second := val } } := by
      simp only [insert_no_grow, hidx]
      rw [if_neg (not_not_intro hocc)]
    have hkey : (entryAt m idx).first = key := by
      rcases (find_slot_some_spec hidx).2 with h | h
      · exact absurd hocc h
      · exact h
    have hfind_old : find hash m key = some ((entryAt m idx).second) := by
      simp only [find, hidx]
      rw [if_pos ⟨hocc, hkey⟩]
    obtain ⟨hwf2, hfind2, hframe⟩ := insert_overwrite_spec hwf hidx hocc
      { m with entries := m.entries.setD idx { entryAt m idx with second := val } }
      rfl rfl rfl
    rw [hres]
    refine ⟨hwf2, rfl, hfind2, hframe, ?_, fun _ => rfl⟩
    intro hnone
    rw [hfind_old] at hnone
    cases hnone
  · have hres : insert_no_grow hash m key val =
        { m with entries := m.entries.setD idx ⟨1, key, val⟩, m_size := m.m_size + 1 } := by
      simp only [insert_no_grow, hidx]
      rw [if_pos hocc]
    have hfind_old : find hash m key = none := by
      simp only [find, hidx]
      rw [if_neg (fun hc => hocc hc.1)]
    obtain ⟨hwf2, hfind2, hframe⟩ := insert_fresh_spec hwf hroom hidx hocc
      { m with entries := m.entries.setD idx ⟨1, key, val⟩, m_size := m.m_size + 1 }
      rfl rfl rfl
    rw [hres]
    exact ⟨hwf2, rfl, hfind2, hframe, fun _ => rfl, fun hne => absurd hfind_old hne⟩

/-- toList_getElem_entryAt relates positional access to the list view of the
entry array with entryAt. -/
theorem toList_getElem_entryAt (m : map K V) (i : Nat) (hi : i < m.entries.toList.length) :
    m.entries.toList[i] = entryAt m i := by
  have hi2 : i < m.entries.size := by rw [← Array.length_toList]; exact hi
  rw [Array.getElem_toList hi2, entryAt_eq_getElem m i hi2]

/-- grow_fold_spec: folding the rehash step over a list of old entries whose
occupied keys are pairwise distinct and absent from the accumulator, with
room for all of them, reinserts exactly the occupied entries. -/
theorem grow_fold_spec (hash : K → Nat) :
    ∀ (suf : List (Entry K V)) (acc : map K V),
    WF hash acc →
    4 * (acc.m_size + (suf.filter (fun e => e.state == 1)).length) +
      4 * ((acc.m_size + (suf.filter (fun e => e.state == 1)).length) / 2 ^ 24) ≤
      3 * acc.capacity →
    (∀ e ∈ suf, e.state = 1 → find hash acc e.first = none) →
    List.Pairwise (fun e1 e2 => e1.state = 1 → e2.state = 1 → e1.first ≠ e2.first) suf →
    WF hash (suf.foldl (rehashStep hash) acc) ∧
    (suf.foldl (rehashStep hash) acc).capacity = acc.capacity ∧
    (suf.foldl (rehashStep hash) acc).m_size =
      acc.m_size + (suf.filter (fun e => e.state == 1)).length ∧
    (∀ e ∈ suf, e.state = 1 →
      find hash (suf.foldl (rehashStep hash) acc) e.first = some e.second) ∧
    (∀ key2, (∀ e ∈ suf, e.state = 1 → e.first ≠ key2) →
      find hash (suf.foldl (rehashStep hash) acc) key2 = find hash acc key2) := by
  intro suf
  induction suf with
  | nil =>
    intro acc hwf _ _ _
    refine ⟨hwf, rfl, ?_, ?_, ?_⟩
    · simp [List.filter_nil]
    · intro e he; cases he
    · intro key2 _; rfl
  | cons e suf ih =>
    intro acc hwf hroom hnone hpw
    have hpw_head : ∀ e2 ∈ suf, e.state = 1 → e2.state = 1 → e.first ≠ e2.first := by
      intro e2 he2 hs hs2
      exact (List.pairwise_cons.mp hpw).1 e2 he2 hs hs2
    have hpw_tail := (List.pairwise_cons.mp hpw).2
    by_cases he : e.state = 1
    · have hstep : rehashStep hash acc e = insert_no_grow hash acc e.first e.second := by
        unfold rehashStep; rw [if_pos he]
      have hfil : ((e :: suf).filter (fun e => e.state == 1)).length =
          (suf.filter (fun e => e.state == 1)).length + 1 := by
        rw [List.filter_cons, if_pos (beq_iff_eq.mpr he)]
        simp [List.length_cons]
      have hroom1 : 4 * toFloat32 (acc.m_size + 1) ≤ 3 * acc.capacity := by
        have h2 := toFloat32_le (acc.m_size + 1)
        have h3 : acc.m_size + 1 ≤
            acc.m_size + ((e :: suf).filter (fun e => e.state == 1)).length := by
          rw [hfil]; omega
        have h4 : (acc.m_size + 1) / 2 ^ 24 ≤
            (acc.m_size + ((e :: suf).filter (fun e => e.state == 1)).length) / 2 ^ 24 :=
          Nat.div_le_div_right h3
        omega
      have hnone_e : find hash acc e.first = none := hnone e (by simp) he
      obtain ⟨hwf1, hcap1, hfind1, hframe1, hsize1, _⟩ :=
        insert_no_grow_spec hash acc e.first e.second hwf hroom1
      have hsz1 : (insert_no_grow hash acc e.first e.second).m_size = acc.m_size + 1 :=
        hsize1 hnone_e
      have hroom2 : 4 * ((insert_no_grow hash acc e.first e.second).m_size +
          (suf.filter (fun e => e.state == 1)).length) +
          4 * (((insert_no_grow hash acc e.first e.second).m_size +
            (suf.filter (fun e => e.state == 1)).length) / 2 ^ 24) ≤
          3 * (insert_no_grow hash acc e.first e.second).capacity := by
        rw [hsz1, hcap1]
        rw [hfil] at hroom
        omega
      have hnone2 : ∀ e2 ∈ suf, e2.state = 1 →
          find hash (insert_no_grow hash acc e.first e.second) e2.first = none := by
        intro e2 he2 hs2
        rw [hframe1 e2.first (Ne.symm (hpw_head e2 he2 he hs2))]
        exact hnone e2 (by simp [he2]) hs2
      obtain ⟨hwfr, hcapr, hsizer, hmemr, hframer⟩ :=
        ih (insert_no_grow hash acc e.first e.second) hwf1 hroom2 hnone2 hpw_tail
      have hfold : (e :: suf).foldl (rehashStep hash) acc =
          suf.foldl (rehashStep hash) (insert_no_grow hash acc e.first e.second) := by
        rw [List.foldl_cons, hstep]
      rw [hfold]
      refine ⟨hwfr, by rw [hcapr, hcap1], ?_, ?_, ?_⟩
      · rw [hsizer, hsz1, hfil]; omega
      · intro e2 he2 hs2
        rcases List.mem_cons.mp he2 with rfl | htail
        · rw [hframer e2.first ?_]
          · exact hfind1
          · intro e3 he3 hs3
            exact Ne.symm (hpw_head e3 he3 hs2 hs3)
        · exact hmemr e2 htail hs2
      · intro key2 havoid
        rw [hframer key2 (fun e3 he3 hs3 => havoid e3 (by simp [he3]) hs3)]
        exact hframe1 key2 (Ne.symm (havoid e (by simp) he))
    · have hstep : rehashStep hash acc e = acc := by
        unfold rehashStep; rw [if_neg he]
      have hfil : ((e :: suf).filter (fun e => e.state == 1)).length =
          (suf.filter (fun e => e.state == 1)).length := by
        rw [List.filter_cons, if_neg (by simp [he])]
      have hfold : (e :: suf).foldl (rehashStep hash) acc =
          suf.foldl (rehashStep hash) acc := by
        rw [List.foldl_cons, hstep]
      rw [hfold, hfil]
      have hroom2 : 4 * (acc.m_size + (suf.filter (fun e => e.state == 1)).length) +
          4 * ((acc.m_size + (suf.filter (fun e => e.state == 1)).length) / 2 ^ 24) ≤
          3 * acc.capacity := by rw [hfil] at hroom; exact hroom
      have hnone2 : ∀ e2 ∈ suf, e2.state = 1 → find hash acc e2.first = none :=
        fun e2 he2 hs2 => hnone e2 (by simp [he2]) hs2
      obtain ⟨hwfr, hcapr, hsizer, hmemr, hframer⟩ := ih acc hwf hroom2 hnone2 hpw_tail
      refine ⟨hwfr, hcapr, hsizer, ?_, ?_⟩
      · intro e2 he2 hs2
        rcases List.mem_cons.mp he2 with rfl | htail
        · exact absurd hs2 he
        · exact hmemr e2 htail hs2
      · intro key2 havoid
        exact hframer key2 (fun e3 he3 hs3 => havoid e3 (by simp [he3]) hs3)

/-- The pairwise-distinct-keys invariant, read off the list view. -/
theorem pairwise_keys_of_WF {hash : K → Nat} {m : map K V} (hwf : WF hash m) :
    List.Pairwise (fun e1 e2 => e1.state = 1 → e2.state = 1 → e1.first ≠ e2.first)
      m.entries.toList := by
  rw [List.pairwise_iff_getElem]
  intro i j hi hj hij
  rw [toList_getElem_entryAt m i hi, toList_getElem_entryAt m j hj]
  intro hsi hsj hff
  have him : i < m.entries.size := by rw [← Array.length_toList]; exact hi
  have hjm : j < m.entries.size := by rw [← Array.length_toList]; exact hj
  have := hwf.distinct i him j hjm hsi hsj hff
  omega

/-- grow_spec: growth preserves well-formedness, doubles the capacity,
keeps the size, and leaves every key's lookup unchanged. -/
theorem grow_spec (hash : K → Nat) (m : map K V) (hwf : WF hash m) :
    WF hash (grow hash m) ∧ (grow hash m).capacity = 2 * m.capacity ∧
    (grow hash m).m_size = m.m_size ∧
    ∀ key, find hash (grow hash m) key = find hash m key := by
  obtain ⟨kk, hkk, hcap⟩ := hwf.pow2
  have hc2 : 2 * m.capacity = 2 ^ (kk + 1) := by rw [hcap, pow_succ]; ring
  have hbase : WF hash (map.new K V (2 * m.capacity)) := by
    rw [hc2]; exact WF_new hash (kk + 1) (by omega)
  have hcappos := hwf.cap_pos
  have hfindnew : ∀ key, find hash (map.new K V (2 * m.capacity)) key = none := by
    intro key
    exact find_new hash _ (by omega) key
  have hroom0 : 4 * ((map.new K V (2 * m.capacity)).m_size +
      (m.entries.toList.filter (fun e => e.state == 1)).length) +
      4 * (((map.new K V (2 * m.capacity)).m_size +
        (m.entries.toList.filter (fun e => e.state == 1)).length) / 2 ^ 24) ≤
      3 * (map.new K V (2 * m.capacity)).capacity := by
    have h2 := hwf.count
    have h3 := hwf.size_lt
    show 4 * (0 + (m.entries.toList.filter (fun e => e.state == 1)).length) +
      4 * ((0 + (m.entries.toList.filter (fun e => e.state == 1)).length) / 2 ^ 24) ≤
      3 * (2 * m.capacity)
    omega
  have hnone0 : ∀ e ∈ m.entries.toList, e.state = 1 →
      find hash (map.new K V (2 * m.capacity)) e.first = none :=
    fun e _ _ => hfindnew e.first
  obtain ⟨hwfg, hcapg, hsizeg, hmemg, hframeg⟩ :=
    grow_fold_spec hash m.entries.toList (map.new K V (2 * m.capacity))
      hbase hroom0 hnone0 (pairwise_keys_of_WF hwf)
  have hgrow : grow hash m =
      m.entries.toList.foldl (rehashStep hash) (map.new K V (2 * m.capacity)) := rfl
  refine ⟨hwfg, ?_, ?_, ?_⟩
  · exact hcapg
  · rw [hgrow, hsizeg, hwf.count]
    show 0 + (m.entries.toList.filter (fun e => e.state == 1)).length =
      (m.entries.toList.filter (fun e => e.state == 1)).length
    omega
  · intro key
    rw [hgrow]
    cases hfk : find hash m key with
    | some v =>
      obtain ⟨i, hi, hs, hf, hv⟩ := find_some_spec hfk
      have hlen : i < m.entries.toList.length := by
        rw [Array.length_toList]; exact hi
      have hmem : entryAt m i ∈ m.entries.toList := by
        rw [← toList_getElem_entryAt m i hlen]
        exact List.getElem_mem hlen
      have := hmemg (entryAt m i) hmem hs
      rw [hf, hv] at this
      exact this
    | none =>
      have habs := find_none_spec hwf hfk
      rw [hframeg key ?_]
      · exact hfindnew key
      · intro e he hs
        rcases List.mem_iff_getElem.mp he with ⟨n, hn, rfl⟩
        rw [toList_getElem_entryAt m n hn] at hs ⊢
        have hnm : n < m.entries.size := by rw [← Array.length_toList]; exact hn
        exact habs n hnm hs

/-- grow_inner_check_silent: at every intermediate state of the rehash loop
the load-factor check of the inner operator[] call is false, so the inner
call never grows and the check-free path insert_no_grow taken by the model
is exact. -/
theorem grow_inner_check_silent (hash : K → Nat) (m : map K V) (hwf : WF hash m)
    (pre suf : List (Entry K V)) (hsplit : m.entries.toList = pre ++ suf) :
    ¬ 3 * ((pre.foldl (rehashStep hash) (map.new K V (2 * m.capacity))).capacity) <
      4 * toFloat32
        ((pre.foldl (rehashStep hash) (map.new K V (2 * m.capacity))).m_size + 1) := by
  obtain ⟨kk, hkk, hcap⟩ := hwf.pow2
  have hc2 : 2 * m.capacity = 2 ^ (kk + 1) := by rw [hcap, pow_succ]; ring
  have hbase : WF hash (map.new K V (2 * m.capacity)) := by
    rw [hc2]; exact WF_new hash (kk + 1) (by omega)
  have hcappos := hwf.cap_pos
  have hprelen : pre.length ≤ m.capacity := by
    have h1 : m.entries.toList.length = pre.length + suf.length := by
      rw [hsplit, List.length_append]
    rw [Array.length_toList, hwf.size_eq] at h1
    omega
  have hroom0 : 4 * ((map.new K V (2 * m.capacity)).m_size +
      (pre.filter (fun e => e.state == 1)).length) +
      4 * (((map.new K V (2 * m.capacity)).m_size +
        (pre.filter (fun e => e.state == 1)).length) / 2 ^ 24) ≤
      3 * (map.new K V (2 * m.capacity)).capacity := by
    have h2 : (pre.filter (fun e => e.state == 1)).length ≤ pre.length :=
      List.length_filter_le _ _
    show 4 * (0 + (pre.filter (fun e => e.state == 1)).length) +
      4 * ((0 + (pre.filter (fun e => e.state == 1)).length) / 2 ^ 24) ≤
      3 * (2 * m.capacity)
    omega
  have hnone0 : ∀ e ∈ pre, e.state = 1 →
      find hash (map.new K V (2 * m.capacity)) e.first = none := by
    intro e _ _
    exact find_new hash _ (by omega) e.first
  have hpw : List.Pairwise
      (fun e1 e2 => e1.state = 1 → e2.state = 1 → e1.first ≠ e2.first) pre := by
    have h1 := pairwise_keys_of_WF hwf
    rw [hsplit] at h1
    exact List.Pairwise.sublist (List.sublist_append_left pre suf) h1
  obtain ⟨_, hcapg, hsizeg, _, _⟩ := grow_fold_spec hash pre
    (map.new K V (2 * m.capacity)) hbase hroom0 hnone0 hpw
  rw [hcapg, hsizeg]
  have h2 : (pre.filter (fun e => e.state == 1)).length ≤ pre.length :=
    List.length_filter_le _ _
  have h3 := toFloat32_le
    ((map.new K V (2 * m.capacity)).m_size + (pre.filter (fun e => e.state == 1)).length + 1)
  show ¬ 3 * (2 * m.capacity) <
    4 * toFloat32
      ((map.new K V (2 * m.capacity)).m_size + (pre.filter (fun e => e.state == 1)).length + 1)
  show ¬ 3 * (2 * m.capacity) <
    4 * toFloat32 (0 + (pre.filter (fun e => e.state == 1)).length + 1)
  have h4 := toFloat32_le (0 + (pre.filter (fun e => e.state == 1)).length + 1)
  omega

/-- bracketAssign_spec: the full `m[key] = val` operation on a well-formed
map preserves well-formedness, makes the key look up the assigned value,
leaves every other key's lookup unchanged, bumps the size exactly when the
key was absent, and keeps or doubles the capacity (doubling exactly when the
load-factor check fires). -/
theorem bracketAssign_spec (hash : K → Nat) (m : map K V) (key : K) (val : V)
    (hwf : WF hash m) :
    WF hash (bracketAssign hash m key val) ∧
    find hash (bracketAssign hash m key val) key = some val ∧
    (∀ key2, key2 ≠ key →
      find hash (bracketAssign hash m key val) key2 = find hash m key2) ∧
    (find hash m key = none → (bracketAssign hash m key val).m_size = m.m_size + 1) ∧
    (find hash m key ≠ none → (bracketAssign hash m key val).m_size = m.m_size) ∧
    (bracketAssign hash m key val).capacity =
      (if 3 * m.capacity < 4 * toFloat32 (m.m_size + 1) then 2 * m.capacity
       else m.capacity) := by
  have hcappos := hwf.cap_pos
  by_cases hcheck : 3 * m.capacity < 4 * toFloat32 (m.m_size + 1)
  · obtain ⟨hwfg, hcapg, hsizeg, hfindg⟩ := grow_spec hash m hwf
    have hroom : 4 * toFloat32 ((grow hash m).m_size + 1) ≤
        3 * (grow hash m).capacity := by
      have hlt := hwf.size_lt
      have h2 := toFloat32_le ((grow hash m).m_size + 1)
      rw [hsizeg] at h2
      rw [hsizeg, hcapg]
      omega
    obtain ⟨hwf2, hcap2, hfind2, hframe2, hinc2, hkeep2⟩ :=
      insert_no_grow_spec hash (grow hash m) key val hwfg hroom
    have hres : bracketAssign hash m key val =
        insert_no_grow hash (grow hash m) key val := by
      unfold bracketAssign
      rw [if_pos hcheck]
    rw [hres]
    refine ⟨hwf2, hfind2, ?_, ?_, ?_, ?_⟩
    · intro key2 hk2
      rw [hframe2 key2 hk2, hfindg key2]
    · intro hnone
      rw [hinc2 (by rw [hfindg]; exact hnone), hsizeg]
    · intro hsome
      rw [hkeep2 (by rw [hfindg]; exact hsome), hsizeg]
    · rw [hcap2, hcapg, if_pos hcheck]
  · have hroom : 4 * toFloat32 (m.m_size + 1) ≤ 3 * m.capacity := by omega
    obtain ⟨hwf2, hcap2, hfind2, hframe2, hinc2, hkeep2⟩ :=
      insert_no_grow_spec hash m key val hwf hroom
    have hres : bracketAssign hash m key val = insert_no_grow hash m key val := by
      unfold bracketAssign
      rw [if_neg hcheck]
    rw [hres]
    exact ⟨hwf2, hfind2, hframe2, hinc2, hkeep2, by rw [hcap2, if_neg hcheck]⟩

/-- insertAll_spec: assigning a list of pairwise-distinct fresh keys in order
adds one entry per pair, makes each key look up its value, and leaves other
keys unchanged. -/
theorem insertAll_spec (hash : K → Nat) :
    ∀ (ps : List (K × V)) (m : map K V),
    WF hash m →
    (∀ p ∈ ps, find hash m p.1 = none) →
    (ps.map Prod.fst).Nodup →
    WF hash (insertAll hash ps m) ∧
    (insertAll hash ps m).m_size = m.m_size + ps.length ∧
    (∀ p ∈ ps, find hash (insertAll hash ps m) p.1 = some p.2) ∧
    (∀ key2, (∀ p ∈ ps, p.1 ≠ key2) →
      find hash (insertAll hash ps m) key2 = find hash m key2) := by
  intro ps
  induction ps with
  | nil =>
    intro m hwf _ _
    exact ⟨hwf, rfl, fun p hp => absurd hp (List.not_mem_nil p), fun _ _ => rfl⟩
  | cons p ps ih =>
    intro m hwf hnone hnd
    have hnd2 : (p.1 :: ps.map Prod.fst).Nodup := by
      rw [← List.map_cons]; exact hnd
    have hnd_head : ∀ q ∈ ps, q.1 ≠ p.1 := by
      intro q hq hcon
      exact (List.nodup_cons.mp hnd2).1 (hcon ▸ List.mem_map_of_mem Prod.fst hq)
    have hfold : insertAll hash (p :: ps) m =
        insertAll hash ps (bracketAssign hash m p.1 p.2) := rfl
    obtain ⟨hwf1, hfind1, hframe1, hinc1, _, _⟩ := bracketAssign_spec hash m p.1 p.2 hwf
    have hsz1 : (bracketAssign hash m p.1 p.2).m_size = m.m_size + 1 :=
      hinc1 (hnone p (by simp))
    have hnone2 : ∀ q ∈ ps, find hash (bracketAssign hash m p.1 p.2) q.1 = none := by
      intro q hq
      rw [hframe1 q.1 (hnd_head q hq)]
      exact hnone q (by simp [hq])
    obtain ⟨hwfr, hsizer, hmemr, hframer⟩ :=
      ih (bracketAssign hash m p.1 p.2) hwf1 hnone2 (List.nodup_cons.mp hnd2).2
    rw [hfold]
    refine ⟨hwfr, ?_, ?_, ?_⟩
    · rw [hsizer, hsz1, List.length_cons]; omega
    · intro q hq
      rcases List.mem_cons.mp hq with rfl | htail
      · rw [hframer q.1 (fun r hr => hnd_head r hr)]
        exact hfind1
      · exact hmemr q htail
    · intro key2 havoid
      rw [hframer key2 (fun q hq => havoid q (by simp [hq]))]
      exact hframe1 key2 (Ne.symm (havoid p (by simp)))

/-- Every map reachable without ownership transfer is well-formed and has
capacity at least the configured initial size 8. -/
theorem ReachableCore_WF (hash : K → Nat) (m : map K V) (h : ReachableCore hash m) :
    WF hash m ∧ 8 ≤ m.capacity := by
  have hinit : WF hash (map.new K V 8) ∧ 8 ≤ (map.new K V 8).capacity := by
    constructor
    · have h8 : (8 : Nat) = 2 ^ 3 := by norm_num
      rw [h8]
      exact WF_new hash 3 (by omega)
    · show 8 ≤ 8
      omega
  induction h with
  | init => exact hinit
  | insert key val hm ihm =>
    obtain ⟨hwf, hcap⟩ := ihm
    obtain ⟨hwf2, _, _, _, _, hcap2⟩ := bracketAssign_spec hash _ key val hwf
    refine ⟨hwf2, ?_⟩
    rw [hcap2]
    split
    · omega
    · omega
  | cleared hm ihm => exact hinit

/-- Idempotence of a bitmask. -/
theorem land_idem (x msk : Nat) : (x &&& msk) &&& msk = x &&& msk := by
  rw [Nat.land_assoc]
  have h1 : msk &&& msk = msk := by
    apply Nat.eq_of_testBit_eq
    intro i
    rw [Nat.testBit_land, Bool.and_self]
  rw [h1]

/-- One-step unfolding of the probe loop when fuel remains. -/
theorem find_slot_loop_pos_unfold (m : map K V) (key : K) (fuel i index : Nat)
    (hf : 1 ≤ fuel) :
    find_slot_loop m key fuel i index =
      if index < m.entries.size then
        (if TermEntry (entryAt m index) key then some index
         else find_slot_loop m key (fuel - 1) (i + 1) ((index + i) &&& (m.capacity - 1)))
      else none := by
  rcases fuel with _ | f
  · omega
  · rfl

/-- One-step unfolding of the probe trace when fuel remains. -/
theorem find_slot_trace_pos_unfold (m : map K V) (key : K) (fuel i index : Nat)
    (hf : 1 ≤ fuel) :
    find_slot_trace m key fuel i index =
      if index < m.entries.size then
        (if TermEntry (entryAt m index) key then [index]
         else index ::
           find_slot_trace m key (fuel - 1) (i + 1) ((index + i) &&& (m.capacity - 1)))
      else [] := by
  rcases fuel with _ | f
  · omega
  · rfl

/-! The claims. -/

/-- C1: for every sequence of pairwise-distinct keys inserted via
index_or_insert (operator[]), each assigned a value, afterwards size() equals
the number of keys and find returns the last (only) value assigned to each
key. -/
theorem c1_insert_unique_keys (hash : K → Nat) (ps : List (K × V))
    (hnd : (ps.map Prod.fst).Nodup) :
    (insertAll hash ps (map.new K V 8)).m_size = ps.length ∧
    ∀ p ∈ ps, find hash (insertAll hash ps (map.new K V 8)) p.1 = some p.2 := by
  have hwf0 : WF hash (map.new K V 8) := by
    have h8 : (8 : Nat) = 2 ^ 3 := by norm_num
    rw [h8]
    exact WF_new hash 3 (by omega)
  have hnone0 : ∀ p ∈ ps, find hash (map.new K V 8) p.1 = none :=
    fun p _ => find_new hash 8 (by omega) p.1
  obtain ⟨_, hsz, hmem, _⟩ := insertAll_spec hash ps (map.new K V 8) hwf0 hnone0 hnd
  refine ⟨?_, hmem⟩
  rw [hsz]
  show 0 + ps.length = ps.length
  omega

/-- Witness for C1 at a concrete two-element insertion sequence. -/
theorem c1_witness :
    ((([(1, 10), (2, 20)] : List (Nat × Nat)).map Prod.fst).Nodup) ∧
    ((insertAll (hash_fn 4) [(1, 10), (2, 20)] (map.new Nat Nat 8)).m_size = 2 ∧
      ∀ p ∈ ([(1, 10), (2, 20)] : List (Nat × Nat)),
        find (hash_fn 4) (insertAll (hash_fn 4) [(1, 10), (2, 20)]
          (map.new Nat Nat 8)) p.1 = some p.2) :=
  ⟨by decide, c1_insert_unique_keys (hash_fn 4) [(1, 10), (2, 20)] (by decide)⟩

/-- C2 counterexample: the probe sequence of find_slot (advancement
increments 0, 1, 2, ...) examines the home slot twice in a row, so for
capacity 8 and home slot 0 the first 8 examined indices are not pairwise
distinct: the sequence does not visit every slot exactly once before an index
repeats. -/
theorem c2_counterexample :
    probeFrom 8 0 0 0 = probeFrom 8 0 0 1 ∧
    ¬ (∀ n, n < 8 → ∀ n2, n2 < 8 → probeFrom 8 0 0 n = probeFrom 8 0 0 n2 → n = n2) := by
  decide

/-- C2 amended: for a power-of-two capacity and any home slot h, probe
steps 0 and 1 both examine h, and steps 1 through capacity visit every slot
index exactly once; hence every slot is examined within capacity + 1
probes and no slot is missed. -/
theorem c2_probe_coverage (kk h : Nat) (hh : h < 2 ^ kk) :
    probeFrom (2 ^ kk) 0 h 0 = h ∧
    probeFrom (2 ^ kk) 0 h 1 = h ∧
    (∀ t, t < 2 ^ kk → ∃ n, 1 ≤ n ∧ n ≤ 2 ^ kk ∧ probeFrom (2 ^ kk) 0 h n = t) ∧
    (∀ n n2, 1 ≤ n → n ≤ 2 ^ kk → 1 ≤ n2 → n2 ≤ 2 ^ kk →
      probeFrom (2 ^ kk) 0 h n = probeFrom (2 ^ kk) 0 h n2 → n = n2) := by
  refine ⟨rfl, ?_, ?_, ?_⟩
  · show (h + (0 + 0)) &&& (2 ^ kk - 1) = h
    have h0 : h + (0 + 0) = h := by omega
    rw [h0]
    exact land_two_pow_sub_one_of_lt hh
  · intro t ht
    obtain ⟨n, hn, heq⟩ := probe_mod_surj h t ht
    exact ⟨n + 1, by omega, by omega, by rw [probeFrom_tri h hh n]; exact heq⟩
  · intro n n2 h1 h2 h3 h4 heq
    rcases n with _ | n
    · omega
    rcases n2 with _ | n2
    · omega
    rw [probeFrom_tri h hh n, probeFrom_tri h hh n2] at heq
    have h5 := tri_inj (k := kk) (a := n) (b := n2) (by omega) (by omega)
      (Nat.ModEq.add_left_cancel (Nat.ModEq.refl h) heq)
    omega

/-- Witness for C2 amended at capacity 2 ^ 3 = 8 and home slot 3. -/
theorem c2_witness :
    (3 : Nat) < 2 ^ 3 ∧
    (probeFrom (2 ^ 3) 0 3 0 = 3 ∧
     probeFrom (2 ^ 3) 0 3 1 = 3 ∧
     (∀ t, t < 2 ^ 3 → ∃ n, 1 ≤ n ∧ n ≤ 2 ^ 3 ∧ probeFrom (2 ^ 3) 0 3 n = t) ∧
     (∀ n n2, 1 ≤ n → n ≤ 2 ^ 3 → 1 ≤ n2 → n2 ≤ 2 ^ 3 →
       probeFrom (2 ^ 3) 0 3 n = probeFrom (2 ^ 3) 0 3 n2 → n = n2)) :=
  ⟨by decide, c2_probe_coverage 3 3 (by decide)⟩

/-- C3 counterexample: on a table of capacity 8 whose slot 0 is occupied by
key 0, looking up key 8 (same home slot 0) examines the slots [0, 0, 1] -
the home slot twice - whereas the sequence claimed by the spec (advancing
with attempt = 1, 2, 3, ...) is [0, 1]; the examined sequence is not the
claimed one. -/
theorem c3_counterexample :
    find_slot_examined (hash_fn 4) (bracketAssign (hash_fn 4) (map.new Nat Nat 8) 0 5) 8 =
      [0, 0, 1] ∧
    find_slot_trace (bracketAssign (hash_fn 4) (map.new Nat Nat 8) 0 5) 8 8 1
      (hash_fn 4 8 &&& 7) = [0, 1] ∧
    ([0, 0, 1] : List Nat) ≠ [0, 1] := by decide

/-- C3 amended: find_slot computes home = hash(key) & (capacity - 1) and
probes with attempt = 0, 1, 2, ...; the zeroth advancement is by 0, so when
the home slot does not terminate the probe it is examined a second time,
after which the examined sequence is exactly the claimed one (attempt = 1,
2, 3, ...); the returned index always equals the index the claimed rule
(attempt starting at 1) produces. -/
theorem c3_find_slot_attempts (hash : K → Nat) (m : map K V) (key : K)
    (hc : 1 ≤ m.capacity) :
    find_slot hash m key =
      find_slot_loop m key m.capacity 1 (hash key &&& (m.capacity - 1)) ∧
    (hash key &&& (m.capacity - 1) < m.entries.size →
      ¬ TermEntry (entryAt m (hash key &&& (m.capacity - 1))) key →
      find_slot_examined hash m key =
        (hash key &&& (m.capacity - 1)) ::
          find_slot_trace m key m.capacity 1 (hash key &&& (m.capacity - 1))) := by
  have hland : ((hash key &&& (m.capacity - 1)) + 0) &&& (m.capacity - 1) =
      hash key &&& (m.capacity - 1) := by
    rw [Nat.add_zero]
    exact land_idem _ _
  have hrhs := find_slot_loop_pos_unfold m key m.capacity 1
    (hash key &&& (m.capacity - 1)) hc
  constructor
  · rw [show find_slot hash m key =
        find_slot_loop m key (m.capacity + 1) 0 (hash key &&& (m.capacity - 1)) from rfl,
      find_slot_loop_pos_unfold m key (m.capacity + 1) 0 _ (by omega)]
    simp only [Nat.add_sub_cancel]
    rw [hland]
    by_cases hb : hash key &&& (m.capacity - 1) < m.entries.size
    · rw [if_pos hb]
      by_cases ht : TermEntry (entryAt m (hash key &&& (m.capacity - 1))) key
      · rw [if_pos ht, hrhs, if_pos hb, if_pos ht]
      · rw [if_neg ht]
    · rw [if_neg hb, hrhs, if_neg hb]
  · intro hb ht
    rw [show find_slot_examined hash m key =
        find_slot_trace m key (m.capacity + 1) 0 (hash key &&& (m.capacity - 1)) from rfl,
      find_slot_trace_pos_unfold m key (m.capacity + 1) 0 _ (by omega)]
    simp only [Nat.add_sub_cancel]
    rw [hland, if_pos hb, if_neg ht]

/-- Witness for C3 amended on a concrete capacity-8 table. -/
theorem c3_witness :
    1 ≤ (bracketAssign (hash_fn 4) (map.new Nat Nat 8) 0 5).capacity ∧
    (find_slot (hash_fn 4) (bracketAssign (hash_fn 4) (map.new Nat Nat 8) 0 5) 8 =
      find_slot_loop (bracketAssign (hash_fn 4) (map.new Nat Nat 8) 0 5) 8
        (bracketAssign (hash_fn 4) (map.new Nat Nat 8) 0 5).capacity 1
        (hash_fn 4 8 &&&
          ((bracketAssign (hash_fn 4) (map.new Nat Nat 8) 0 5).capacity - 1)) ∧
     (hash_fn 4 8 &&&
          ((bracketAssign (hash_fn 4) (map.new Nat Nat 8) 0 5).capacity - 1) <
        (bracketAssign (hash_fn 4) (map.new Nat Nat 8) 0 5).entries.size →
      ¬ TermEntry (entryAt (bracketAssign (hash_fn 4) (map.new Nat Nat 8) 0 5)
          (hash_fn 4 8 &&&
            ((bracketAssign (hash_fn 4) (map.new Nat Nat 8) 0 5).capacity - 1))) 8 →
      find_slot_examined (hash_fn 4) (bracketAssign (hash_fn 4) (map.new Nat Nat 8) 0 5) 8 =
        (hash_fn 4 8 &&&
            ((bracketAssign (hash_fn 4) (map.new Nat Nat 8) 0 5).capacity - 1)) ::
          find_slot_trace (bracketAssign (hash_fn 4) (map.new Nat Nat 8) 0 5) 8
            (bracketAssign (hash_fn 4) (map.new Nat Nat 8) 0 5).capacity 1
            (hash_fn 4 8 &&&
              ((bracketAssign (hash_fn 4) (map.new Nat Nat 8) 0 5).capacity - 1)))) :=
  ⟨by decide,
   c3_find_slot_attempts (hash_fn 4) (bracketAssign (hash_fn 4) (map.new Nat Nat 8) 0 5) 8
     (by decide)⟩

/-- C4 counterexample: the moved-from source of an ownership transfer is a
map reachable by a sequence of operations whose capacity is 0: not a power
of two and below the configured initial size, so the claimed invariant does
not hold over all reachable maps once the move operation is included. -/
theorem c4_counterexample :
    Reachable (hash_fn 4) ((moveAssign (map.new Nat Nat 8) (map.new Nat Nat 8)).2) ∧
    (moveAssign (map.new Nat Nat 8) (map.new Nat Nat 8)).2.capacity = 0 ∧
    (∀ kk : Nat, (moveAssign (map.new Nat Nat 8) (map.new Nat Nat 8)).2.capacity ≠ 2 ^ kk) ∧
    ¬ 8 ≤ (moveAssign (map.new Nat Nat 8) (map.new Nat Nat 8)).2.capacity := by
  refine ⟨Reachable.moved_src Reachable.init, rfl, ?_, by decide⟩
  intro kk
  show (0 : Nat) ≠ 2 ^ kk
  have h1 := Nat.pos_pow_of_pos (n := 2) kk (by omega)
  omega

/-- C4 amended: for every map reachable from construction by insertions and
clears (ownership transfer excluded: a moved-from source holds no table and
has capacity 0), the capacity is a power of two at least the configured
initial size 8, the table is never full, and after every completed operation
the load bound holds in the program's own single-precision arithmetic:
4 * float(occupied_count) ≤ 3 * capacity.  Whenever the occupied count is at
most 2 ^ 24 - so for every capacity up to 2 ^ 25 - the conversion is exact
and this is the exact bound occupied_count / capacity ≤ 0.75; for larger
tables the cast rounds the count (lemma
float_check_rounds_down_at_2_pow_25) and the exact load can exceed 0.75
only by that rounding: 4 * occupied ≤ 3 * capacity + 4 * (occupied / 2^24). -/
theorem c4_invariants (hash : K → Nat) (m : map K V) (h : ReachableCore hash m) :
    (∃ kk, m.capacity = 2 ^ kk) ∧ 8 ≤ m.capacity ∧
    4 * toFloat32 m.m_size ≤ 3 * m.capacity ∧
    m.m_size < m.capacity ∧
    (m.m_size ≤ 2 ^ 24 → 4 * m.m_size ≤ 3 * m.capacity) ∧
    4 * m.m_size ≤ 3 * m.capacity + 4 * (m.m_size / 2 ^ 24) := by
  obtain ⟨hwf, hcap⟩ := ReachableCore_WF hash m h
  obtain ⟨kk, _, hc⟩ := hwf.pow2
  refine ⟨⟨kk, hc⟩, hcap, hwf.load, hwf.size_lt, ?_, ?_⟩
  · intro hsmall
    have h1 := hwf.load
    rwa [toFloat32_id hsmall] at h1
  · have h2 := toFloat32_ge m.m_size
    have h1 := hwf.load
    omega

/-- Witness for C4 amended at a concrete reachable map. -/
theorem c4_witness :
    (∃ kk, (bracketAssign (hash_fn 4) (map.new Nat Nat 8) 5 7).capacity = 2 ^ kk) ∧
    8 ≤ (bracketAssign (hash_fn 4) (map.new Nat Nat 8) 5 7).capacity ∧
    4 * toFloat32 (bracketAssign (hash_fn 4) (map.new Nat Nat 8) 5 7).m_size ≤
      3 * (bracketAssign (hash_fn 4) (map.new Nat Nat 8) 5 7).capacity ∧
    (bracketAssign (hash_fn 4) (map.new Nat Nat 8) 5 7).m_size <
      (bracketAssign (hash_fn 4) (map.new Nat Nat 8) 5 7).capacity ∧
    ((bracketAssign (hash_fn 4) (map.new Nat Nat 8) 5 7).m_size ≤ 2 ^ 24 →
      4 * (bracketAssign (hash_fn 4) (map.new Nat Nat 8) 5 7).m_size ≤
        3 * (bracketAssign (hash_fn 4) (map.new Nat Nat 8) 5 7).capacity) ∧
    4 * (bracketAssign (hash_fn 4) (map.new Nat Nat 8) 5 7).m_size ≤
      3 * (bracketAssign (hash_fn 4) (map.new Nat Nat 8) 5 7).capacity +
      4 * ((bracketAssign (hash_fn 4) (map.new Nat Nat 8) 5 7).m_size / 2 ^ 24) :=
  c4_invariants (hash_fn 4) (bracketAssign (hash_fn 4) (map.new Nat Nat 8) 5 7)
    (ReachableCore.insert 5 7 ReachableCore.init)

/-- C5: for every well-formed map (every map a growth event can fire on),
growing preserves the size, and every key occupied before the growth is
retrievable after it with an unchanged value. -/
theorem c5_grow_preserves (hash : K → Nat) (m : map K V) (hwf : WF hash m) :
    (grow hash m).m_size = m.m_size ∧
    (grow hash m).capacity = 2 * m.capacity ∧
    ∀ i, i < m.entries.size → (entryAt m i).state = 1 →
      find hash (grow hash m) ((entryAt m i).first) = some ((entryAt m i).second) := by
  obtain ⟨_, hcap, hsz, hfind⟩ := grow_spec hash m hwf
  refine ⟨hsz, hcap, ?_⟩
  intro i hi hs
  rw [hfind]
  exact find_of_occupied hwf hi hs

/-- Witness for C5 at a concrete one-entry map. -/
theorem c5_witness :
    WF (hash_fn 4) (bracketAssign (hash_fn 4) (map.new Nat Nat 8) 5 7) ∧
    ((grow (hash_fn 4) (bracketAssign (hash_fn 4) (map.new Nat Nat 8) 5 7)).m_size =
      (bracketAssign (hash_fn 4) (map.new Nat Nat 8) 5 7).m_size ∧
     (grow (hash_fn 4) (bracketAssign (hash_fn 4) (map.new Nat Nat 8) 5 7)).capacity =
      2 * (bracketAssign (hash_fn 4) (map.new Nat Nat 8) 5 7).capacity ∧
     ∀ i, i < (bracketAssign (hash_fn 4) (map.new Nat Nat 8) 5 7).entries.size →
       (entryAt (bracketAssign (hash_fn 4) (map.new Nat Nat 8) 5 7) i).state = 1 →
       find (hash_fn 4) (grow (hash_fn 4) (bracketAssign (hash_fn 4) (map.new Nat Nat 8) 5 7))
           ((entryAt (bracketAssign (hash_fn 4) (map.new Nat Nat 8) 5 7) i).first) =
         some ((entryAt (bracketAssign (hash_fn 4) (map.new Nat Nat 8) 5 7) i).second)) := by
  have hwf : WF (hash_fn 4) (bracketAssign (hash_fn 4) (map.new Nat Nat 8) 5 7) :=
    ⟨by decide, ⟨3, by decide, by decide⟩, by decide, by decide, by decide, by decide⟩
  exact ⟨hwf, c5_grow_preserves (hash_fn 4) _ hwf⟩

/-- C6: with InitialSize 8, assigning m[i] = 100 + i for integer keys
i = 0, ..., 9 in order grows the capacity from 8 to 16 exactly once: the
capacity is 8 after the first six insertions, the load check fires exactly
at the seventh insertion (state after six insertions: 4 * (6 + 1) > 3 * 8),
the capacity is 16 from the seventh insertion on, and afterwards all ten
keys are retrievable with their assigned values and size() = 10. -/
theorem c6_concrete_scenario :
    (∀ j, j ≤ 6 → (c6map j).capacity = 8) ∧
    (∀ j, j ≤ 10 → 7 ≤ j → (c6map j).capacity = 16) ∧
    (3 * (c6map 6).capacity < 4 * ((c6map 6).m_size + 1)) ∧
    (∀ j, j ≤ 9 → j ≠ 6 → ¬ 3 * (c6map j).capacity < 4 * ((c6map j).m_size + 1)) ∧
    (c6map 10).m_size = 10 ∧
    (∀ n, n < 10 → find (hash_fn 4) (c6map 10) n = some (100 + n)) := by
  decide

/-- C7: find on a key held by no occupied slot (never inserted and not equal
to any inserted key) returns the absent indicator nullptr (none).  The C++
find is const noexcept and is modelled as a pure function: the map value is
not changed by the call, so size, capacity and every slot are unchanged. -/
theorem c7_find_absent (hash : K → Nat) (m : map K V) (key : K)
    (habs : ∀ i, i < m.entries.size → (entryAt m i).state = 1 →
      (entryAt m i).first ≠ key) :
    find hash m key = none :=
  find_eq_none_of_absent habs

/-- Witness for C7: looking up the never-inserted key 3 in a map holding
only key 5. -/
theorem c7_witness :
    (∀ i, i < (bracketAssign (hash_fn 4) (map.new Nat Nat 8) 5 7).entries.size →
      (entryAt (bracketAssign (hash_fn 4) (map.new Nat Nat 8) 5 7) i).state = 1 →
      (entryAt (bracketAssign (hash_fn 4) (map.new Nat Nat 8) 5 7) i).first ≠ 3) ∧
    find (hash_fn 4) (bracketAssign (hash_fn 4) (map.new Nat Nat 8) 5 7) 3 = none :=
  ⟨by decide,
   c7_find_absent (hash_fn 4) (bracketAssign (hash_fn 4) (map.new Nat Nat 8) 5 7) 3
     (by decide)⟩

/-- C8: clear resets the map to exactly the state of a freshly constructed
map with the same configured initial size: the two states are equal, so
size() is 0, the capacity is the initial capacity, and every subsequent
operation sequence behaves identically on the cleared and on the fresh
map. -/
theorem c8_clear_resets (initialSize : Nat) (m m2 : map K V) :
    clear initialSize m = map.new K V initialSize ∧
    (clear initialSize m).m_size = 0 ∧
    (clear initialSize m).capacity = initialSize ∧
    clear initialSize m = clear initialSize m2 :=
  ⟨rfl, rfl, rfl, rfl⟩

/-- C9 counterexample: after dst = move(src), running src[5] = 7 and then
src.find(5) does not behave as on a freshly constructed map: the moved-from
source has capacity 0 and no table, the access is out of bounds (undefined
behaviour in the C++, failure in the model) and the lookup yields none,
whereas the same operations on a fresh map yield 7. -/
theorem c9_counterexample :
    find (hash_fn 4) (bracketAssign (hash_fn 4)
      ((moveAssign (map.new Nat Nat 8) (c6map 2)).2) 5 7) 5 = none ∧
    find (hash_fn 4) (bracketAssign (hash_fn 4) (map.new Nat Nat 8) 5 7) 5 = some 7 := by
  decide

/-- C9 amended: after dst = move(src) the destination holds exactly the
source's previous state (same size, same lookups), and the source is left
with no table: size 0, capacity 0, and every lookup on it returns the absent
indicator by failing its out-of-bounds table access - but find and
index_or_insert on the moved-from source access a zero-capacity table out of
bounds rather than behaving as a freshly constructed map. -/
theorem c9_move_transfer (hash : K → Nat) (dst src : map K V) :
    (moveAssign dst src).1 = src ∧
    (moveAssign dst src).1.m_size = src.m_size ∧
    (∀ key, find hash (moveAssign dst src).1 key = find hash src key) ∧
    (moveAssign dst src).2.m_size = 0 ∧
    (moveAssign dst src).2.capacity = 0 ∧
    (moveAssign dst src).2.entries.size = 0 ∧
    (∀ key, find hash (moveAssign dst src).2 key = none) :=
  ⟨rfl, rfl, fun _ => rfl, rfl, rfl, rfl, fun _ => rfl⟩

/-- C10: when a key is already present and the load check cannot fire
((size + 1) / capacity at most 0.75), operator[] returns a reference to the
value already stored for the key and mutates nothing: the resulting map is
the very same state, so size, capacity and every slot are unchanged. -/
theorem c10_lookup_existing (hash : K → Nat) (m : map K V) (key : K) (i : Nat)
    (hwf : WF hash m) (hi : i < m.entries.size) (hs : (entryAt m i).state = 1)
    (hk : (entryAt m i).first = key)
    (hload : 4 * (m.m_size + 1) ≤ 3 * m.capacity) :
    bracketRef hash m key = (m, (entryAt m i).second) := by
  have hcheck : ¬ 3 * m.capacity < 4 * toFloat32 (m.m_size + 1) := by
    obtain ⟨kk, hkk1, hc⟩ := hwf.pow2
    by_cases hsmall : m.m_size + 1 ≤ 2 ^ 24
    · rw [toFloat32_id hsmall]
      omega
    · have hbig : 2 ^ 24 < m.m_size + 1 := by omega
      have h2 : 4 * (m.m_size + 1) ≤ 3 * 2 ^ kk := by rw [← hc]; exact hload
      have hkk2 : 2 ≤ kk := by
        by_contra hlt
        push_neg at hlt
        have hle4 : 2 ^ kk ≤ 2 ^ 2 := Nat.pow_le_pow_right (by omega) (by omega)
        omega
      have hsplit : 2 ^ kk = 4 * 2 ^ (kk - 2) := by
        obtain ⟨j, hj⟩ : ∃ j, kk = j + 2 := ⟨kk - 2, by omega⟩
        subst hj
        rw [Nat.add_sub_cancel, pow_add]
        ring
      have hle : m.m_size + 1 ≤ 3 * 2 ^ (kk - 2) := by
        rw [hsplit] at h2
        omega
      have h3 := toFloat32_le_of_le (show (3:Nat) < 2 ^ 24 by norm_num) hle
      rw [hc, hsplit]
      omega
  have hfs : find_slot hash m key = some i := by
    have h1 := hwf.findable i hi hs
    rwa [hk] at h1
  have hres : bracketRef hash m key = bracketRefResolve hash m key := by
    unfold bracketRef
    rw [if_neg hcheck]
  rw [hres]
  simp only [bracketRefResolve, hfs]
  rw [if_neg (not_not_intro hs)]

/-- Witness for C10: reading m[5] on a map already holding key 5. -/
theorem c10_witness :
    WF (hash_fn 4) (bracketAssign (hash_fn 4) (map.new Nat Nat 8) 5 7) ∧
    5 < (bracketAssign (hash_fn 4) (map.new Nat Nat 8) 5 7).entries.size ∧
    (entryAt (bracketAssign (hash_fn 4) (map.new Nat Nat 8) 5 7) 5).state = 1 ∧
    (entryAt (bracketAssign (hash_fn 4) (map.new Nat Nat 8) 5 7) 5).first = 5 ∧
    4 * ((bracketAssign (hash_fn 4) (map.new Nat Nat 8) 5 7).m_size + 1) ≤
      3 * (bracketAssign (hash_fn 4) (map.new Nat Nat 8) 5 7).capacity ∧
    bracketRef (hash_fn 4) (bracketAssign (hash_fn 4) (map.new Nat Nat 8) 5 7) 5 =
      (bracketAssign (hash_fn 4) (map.new Nat Nat 8) 5 7,
       (entryAt (bracketAssign (hash_fn 4) (map.new Nat Nat 8) 5 7) 5).second) := by
  have hwf : WF (hash_fn 4) (bracketAssign (hash_fn 4) (map.new Nat Nat 8) 5 7) :=
    ⟨by decide, ⟨3, by decide, by decide⟩, by decide, by decide, by decide, by decide⟩
  exact ⟨hwf, by decide, by decide, by decide, by decide,
    c10_lookup_existing (hash_fn 4) _ 5 5 hwf (by decide) (by decide) (by decide) (by decide)⟩

end shared
